import Mathlib

/-!
# git-analyze: the commit-log ledger

A shallow embedding of `src/parser.go` and `src/objects.go`.

* Strings of the program are Lean strings; `FilePath` is a string type.
* The objects of the go-git library are represented by the data the program
  reads from them: a commit by its hash text, author name, parent hashes and the
  outcome of each repository read made while it is visited; a change by its two
  change entries.
* `checkIfError` ends the process; a run ended this way is the value `none`.
* The commit iterator is the list of commits it hands to the callback of
  `ForEach`.  The callback of `parseCommitLog` returns `nil` on every path, so
  for such an iterator the error returned next to the ledger is always `nil`
  and is not represented.
* `count` and `depth` are Go `int`s, embedded as unbounded integers: `count`
  is incremented once per non-merge commit, so it stays below `2^63` on every
  history that can be stored.
* Logging (`dlog`, `ilog`) has no effect on the result and is left out.
-/

namespace GitAnalyze

/-! ## Data model (`objects.go`) -/

/-- The type `FilePath` of `objects.go`: a string. -/
abbrev FilePath := String

/-- The record `CommitFile` of `objects.go`. -/
structure CommitFile where
  Path : FilePath
  Authors : List String
  CommitHash : List String
  CreateBy : String
deriving DecidableEq, Repr

/-- The type `ParseResult` of `objects.go`: a slice of records. -/
abbrev ParseResult := List CommitFile

/-! ## The go-git objects the parser reads -/

/-- The type `object.ChangeEntry` of go-git: the full name of the entry, the tree
it belongs to (a pointer, `0` for nil) and the tree entry itself (name, mode and
hash, the hash taken as a number). -/
structure ChangeEntry where
  Name : String
  Tree : Nat
  EntryName : String
  Mode : Nat
  Hash : Nat
deriving DecidableEq, Repr

/-- The type `object.Change` of go-git. -/
structure Change where
  From : ChangeEntry
  To : ChangeEntry
deriving DecidableEq, Repr

/-- The variable `emptyChange` of `parser.go`: the zero value of `ChangeEntry`. -/
def emptyChange : ChangeEntry := ⟨"", 0, "", 0, 0⟩

/-- The type `merkletrie.Action` of go-git: an integer whose named values start
at one (`Insert`, `Delete`, `Modify`); `Zero` is the value `Action(0)`. -/
inductive Action where
  | Zero
  | Insert
  | Delete
  | Modify
deriving DecidableEq, Repr

/-- The method `Change.Action` of go-git, which is not part of this repository:
the classification of a change, with `true` in the second component when the
library reports an error (both sides empty). A change without a From side is an
insertion, one without a To side a deletion, any other a modification. -/
def Change.Action (c : Change) : Action × Bool :=
  if c.From = emptyChange ∧ c.To = emptyChange then (Action.Zero, true)
  else if c.From = emptyChange then (Action.Insert, false)
  else if c.To = emptyChange then (Action.Delete, false)
  else (Action.Modify, false)

/-- What the parser reads from an `object.Commit` of go-git.
`TreeErr` says that `c.Tree()` fails, `FirstParentErr` that `c.Parents().Next()`
fails, `FirstParentTreeErr` that `firstParent.Tree()` fails; `Diff` is the
result of `toTree.Diff(fromTree)` between the diff base (the first parent's
tree, or the empty tree of a commit without parents) and the commit's tree,
`none` when the library reports an error. -/
structure Commit where
  Hash : String
  AuthorName : String
  ParentHashes : List String
  TreeErr : Bool
  FirstParentErr : Bool
  FirstParentTreeErr : Bool
  Diff : Option (List Change)
deriving DecidableEq, Repr

/-- The method `NumParents` of go-git: the number of parent hashes. -/
def Commit.NumParents (c : Commit) : Nat := c.ParentHashes.length

/-! ## Helpers of `parser.go` -/

/-- The function `name` of `parser.go`. -/
def name (c : Change) : String :=
  if c.From ≠ emptyChange then c.From.Name else c.To.Name

/-- The function `contains` of `parser.go`. -/
def contains : List String → String → Bool
  | [], _ => false
  | a :: s, e => if e = a then true else contains s e

/-- The loop of `exists`, started at index `i`. -/
def existsFrom (path : FilePath) : List CommitFile → Nat → Option (Nat × CommitFile)
  | [], _ => none
  | v :: files, i => if path = v.Path then some (i, v) else existsFrom path files (i + 1)

/-- The function `exists` of `parser.go`: the index and a copy of the first
record with the given path; `none` stands for the pair `(-1, nil)`. -/
def «exists» (path : FilePath) (files : ParseResult) : Option (Nat × CommitFile) :=
  existsFrom path files 0

/-! ## Regular expressions of Go's `regexp` package

`match_extension` hands a pattern to `regexp.MatchString`, a library function
outside this repository.  The library is represented for the part of its
syntax made of literal characters, `.`, `^`, `$`, escaped punctuation, groups,
`|` and the repetitions `*`, `+`, `?` (each possibly followed by the non-greedy
mark `?`), with the meaning the default flags give them: `^` and `$` hold at
the two ends of the text only and `.` is any character but a line feed. -/

/-- Abstract syntax of the represented regular expressions. -/
inductive Regex where
  | noMatch
  | emptyMatch
  | literal (c : Char)
  | anyCharNotNL
  | anyChar
  | beginText
  | endText
  | concat (r s : Regex)
  | alternate (r s : Regex)
  | star (r : Regex)
deriving DecidableEq, Repr

namespace Regex

/-- One or more repetitions. -/
def plus (r : Regex) : Regex := concat r (star r)

/-- Zero or one occurrence. -/
def quest (r : Regex) : Regex := alternate r emptyMatch

/-- Whether `r` matches the empty word at a position that is (`atStart`) the
start of the text and is (`atEnd`) its end. -/
def nullable (atStart atEnd : Bool) : Regex → Bool
  | noMatch => false
  | emptyMatch => true
  | literal _ => false
  | anyCharNotNL => false
  | anyChar => false
  | beginText => atStart
  | endText => atEnd
  | concat r s => nullable atStart atEnd r && nullable atStart atEnd s
  | alternate r s => nullable atStart atEnd r || nullable atStart atEnd s
  | star _ => true

/-- The derivative of `r` by the character `c` read at a position that is
(`atStart`) the start of the text. -/
def deriv (atStart : Bool) (c : Char) : Regex → Regex
  | noMatch => noMatch
  | emptyMatch => noMatch
  | literal d => if c = d then emptyMatch else noMatch
  | anyCharNotNL => if c = '\n' then noMatch else emptyMatch
  | anyChar => emptyMatch
  | beginText => noMatch
  | endText => noMatch
  | concat r s =>
      if nullable atStart false r then
        alternate (concat (deriv atStart c r) s) (deriv atStart c s)
      else concat (deriv atStart c r) s
  | alternate r s => alternate (deriv atStart c r) (deriv atStart c s)
  | star r => concat (deriv atStart c r) (star r)

/-- Whether `r` matches the whole of the remaining text. -/
def matchesFrom : Regex → Bool → List Char → Bool
  | r, atStart, [] => nullable atStart true r
  | r, atStart, c :: cs => matchesFrom (deriv atStart c r) false cs

end Regex

/-- The outcome of compiling a pattern: a regular expression, a syntax error of
the library, or a pattern outside the represented syntax. -/
inductive Compiled where
  | ok (r : Regex)
  | error
  | unsupported
deriving DecidableEq, Repr

/-- A group under construction: the finished alternatives and the operands of
the alternative being read, the latest first in both. -/
structure Frame where
  alts : List Regex
  items : List Regex
deriving DecidableEq, Repr

/-- The concatenation of operands given latest first. -/
def concatOf (items : List Regex) : Regex :=
  items.foldl (fun acc r => Regex.concat r acc) Regex.emptyMatch

/-- The regular expression of a finished group. -/
def Frame.close (f : Frame) : Regex :=
  (concatOf f.items :: f.alts).foldl (fun acc r => Regex.alternate r acc) Regex.noMatch

/-- Whether `c` is an ASCII character that is neither a letter nor a digit. -/
def isPunct (c : Char) : Bool :=
  decide (c.toNat < 128) && !(c.isAlphanum)

/-- What the parser has just read: `backslash` a backslash whose character is
still to come, `openParen` an opening parenthesis, `repeatOp` a repetition
operator, `repeatMark` a repetition operator and its non-greedy mark, `other`
anything else (or nothing). -/
inductive Prev where
  | other
  | backslash
  | openParen
  | repeatOp
  | repeatMark
deriving DecidableEq, Repr

/-- Applies a repetition operator to the latest operand of the group being
read; a repetition without an operand, or one that follows another repetition,
is a syntax error. -/
def Frame.repeat (top : Frame) (prev : Prev) (op : Regex → Regex) : Option Frame :=
  if prev = Prev.repeatOp ∨ prev = Prev.repeatMark then none
  else match top.items with
    | [] => none
    | r :: rs => some { top with items := op r :: rs }

/-- The parser: reads the pattern one character at a time, left to right;
`stack` holds the enclosing groups, `top` the group being read. -/
def parseLoop : List Char → List Frame → Frame → Prev → Compiled
  | [], stack, top, prev =>
      if prev = Prev.backslash then Compiled.error
      else if stack = [] then Compiled.ok top.close
      else Compiled.error
  | c :: t, stack, top, prev =>
      if prev = Prev.backslash then
        if isPunct c then
          parseLoop t stack { top with items := Regex.literal c :: top.items } Prev.other
        else Compiled.unsupported
      else if prev = Prev.openParen ∧ c = '?' then Compiled.unsupported
      else if prev = Prev.repeatOp ∧ c = '?' then parseLoop t stack top Prev.repeatMark
      else if c = '(' then parseLoop t (top :: stack) ⟨[], []⟩ Prev.openParen
      else if c = ')' then
        match stack with
        | [] => Compiled.error
        | parent :: rest =>
            parseLoop t rest { parent with items := top.close :: parent.items } Prev.other
      else if c = '|' then
        parseLoop t stack ⟨concatOf top.items :: top.alts, []⟩ Prev.other
      else if c = '*' ∨ c = '+' ∨ c = '?' then
        match top.repeat prev
            (if c = '*' then Regex.star else if c = '+' then Regex.plus else Regex.quest) with
        | none => Compiled.error
        | some top1 => parseLoop t stack top1 Prev.repeatOp
      else if c = '\\' then parseLoop t stack top Prev.backslash
      else if c = '[' ∨ c = ']' ∨ c = '{' ∨ c = '}' then Compiled.unsupported
      else
        parseLoop t stack
          { top with items :=
              (if c = '.' then Regex.anyCharNotNL
               else if c = '^' then Regex.beginText
               else if c = '$' then Regex.endText
               else Regex.literal c) :: top.items }
          Prev.other

/-- Compiles a pattern. -/
def compile (pattern : String) : Compiled :=
  parseLoop pattern.toList [] ⟨[], []⟩ Prev.other

/-- The function `regexp.MatchString` of Go for the represented syntax: whether
some part of `s` matches the pattern.  The boolean is `false` when the pattern
does not compile (the error that comes with it is dropped by the one caller);
for a pattern outside the represented syntax the value is `false` as well and
stands for nothing. -/
def regexpMatchString (pattern s : String) : Bool :=
  match compile pattern with
  | Compiled.ok r =>
      Regex.matchesFrom
        (Regex.concat (Regex.star Regex.anyChar) (Regex.concat r (Regex.star Regex.anyChar)))
        true s.toList
  | _ => false

/-- The function `strings.Join` of Go. -/
def stringsJoin (elems : List String) (sep : String) : String :=
  sep.intercalate elems

/-- The function `match_extension` of `parser.go`. -/
def match_extension (extensions : List String) (path : String) : Bool :=
  if extensions.length = 0 then true
  else
    let extensionsRegex := stringsJoin extensions "|"
    regexpMatchString ("^.*\\.(" ++ extensionsRegex ++ "+)$") path

/-! ## The ledger builder (`parseCommitLog`) -/

/-- Modelled from the spec: `checkIfError` is called by `parser.go` and declared
outside `src/`; the spec describes it as the helper that aborts the whole
process on any error from any step.  `none` is the aborted run. -/
def checkIfError (err : Bool) : Option Unit :=
  if err then none else some ()

/-- The variables the callback of `ForEach` closes over. -/
structure LoopState where
  files : ParseResult
  count : Int
deriving DecidableEq, Repr

/-- The body of the loop `for _, v := range diff` of `parseCommitLog`, for the
commit `c`. -/
def diffEntry (c : Commit) (extensions : List String) (files : ParseResult)
    (v : Change) : ParseResult :=
  let path : FilePath := name v
  if !match_extension extensions (name v) then files
  else
    let action := v.Action.1
    let createBy : String := if action = Action.Insert then c.AuthorName else ""
    match «exists» path files with
    | some (index, val) =>
        let val1 : CommitFile :=
          if !contains val.Authors c.AuthorName then
            { val with Authors := val.Authors ++ [c.AuthorName] }
          else val
        let val2 : CommitFile := { val1 with CommitHash := val1.CommitHash ++ [c.Hash] }
        let val3 : CommitFile :=
          if createBy ≠ "" then { val2 with CreateBy := createBy } else val2
        files.set index val3
    | none =>
        files ++ [{ Path := path, Authors := [c.AuthorName], CommitHash := [c.Hash],
                    CreateBy := createBy }]

/-- The callback handed to `cIter.ForEach` by `parseCommitLog`: the state after
the commit `c`, or `none` when `checkIfError` ends the run. -/
def visit (depth : Int) (extensions : List String) (st : LoopState) (c : Commit) :
    Option LoopState :=
  if c.ParentHashes.length > 1 then some st
  else
    let st1 : LoopState := { st with count := st.count + 1 }
    if st1.count > depth ∧ depth > 0 then some st1
    else
      (checkIfError c.TreeErr).bind fun _ =>
        if c.NumParents ≠ 0 ∧ c.FirstParentErr then some st1
        else if c.NumParents ≠ 0 ∧ c.FirstParentTreeErr then some st1
        else
          match c.Diff with
          | none => (checkIfError true).bind fun _ => some st1
          | some diff =>
              some { st1 with files := diff.foldl (diffEntry c extensions) st1.files }

/-- The method `ForEach` of a commit iterator that yields the commits of a list:
the callback runs on each commit in turn. -/
def ForEach (cb : LoopState → Commit → Option LoopState) :
    List Commit → LoopState → Option LoopState
  | [], st => some st
  | c :: cs, st =>
      match cb st c with
      | none => none
      | some st1 => ForEach cb cs st1

/-- The function `parseCommitLog` of `parser.go`: the ledger, or `none` when
the run is ended by `checkIfError`. -/
def parseCommitLog (cIter : List Commit) (depth : Int) (extensions : List String) :
    Option ParseResult :=
  (ForEach (visit depth extensions) cIter ⟨[], 0⟩).map fun st => st.files

/-! ## Vocabulary of the statements -/

/-- A merge commit: more than one parent hash. -/
def isMerge (c : Commit) : Bool := decide (c.ParentHashes.length > 1)

/-- The commits of a sequence that are not merge commits, in order. -/
def nonMerge (cs : List Commit) : List Commit := cs.filter fun c => !isMerge c

/-- An entry of one path: no From side, a To side with the given name. -/
def insertionOf (path : String) : Change :=
  ⟨emptyChange, ⟨path, 1, path, 33188, 1⟩⟩

/-- A modification of one path. -/
def modificationOf (path : String) : Change :=
  ⟨⟨path, 1, path, 33188, 1⟩, ⟨path, 2, path, 33188, 2⟩⟩

/-- A commit whose reads all succeed. -/
def commitOf (hash author : String) (parents : List String) (diff : List Change) : Commit :=
  ⟨hash, author, parents, false, false, false, some diff⟩

/-! ## The ledger as a function of the processed diff entries

The definitions of this section follow the wording of the specification; the
theorems below compare them with `parseCommitLog`. -/

/-- The commits the walker yields: the non-merge commits, and only the first
`depth` of them when the depth bound is positive. -/
def walked (cs : List Commit) (depth : Int) : List Commit :=
  if depth > 0 then (nonMerge cs).take depth.toNat else nonMerge cs

/-- A yielded commit that is passed over because its first parent, or the tree
of its first parent, cannot be read. -/
def passedOver (c : Commit) : Bool :=
  decide (c.NumParents ≠ 0) && (c.FirstParentErr || c.FirstParentTreeErr)

/-- A yielded commit at which the run is ended: its tree cannot be read, or its
diff fails. -/
def fatal (c : Commit) : Bool :=
  c.TreeErr || (!passedOver c && c.Diff.isNone)

/-- The diff entries of a yielded commit that reach the ledger builder. -/
def entriesOf (c : Commit) : List Change :=
  if passedOver c then [] else c.Diff.getD []

/-- The processed diff entries, each with its commit, in traversal order and
diff order: the entries of the yielded commits that pass the extension filter. -/
def processed (cs : List Commit) (depth : Int) (extensions : List String) :
    List (Commit × Change) :=
  (walked cs depth).flatMap fun c =>
    ((entriesOf c).filter fun v => match_extension extensions (name v)).map fun v => (c, v)

/-- An entry classified as an insertion by the diff model. -/
def isInsertion (v : Change) : Bool := decide (v.Action.1 = Action.Insert)

/-- The value `createBy` of one event: the author for an insertion, else empty. -/
def createByOf (c : Commit) (v : Change) : String :=
  if isInsertion v then c.AuthorName else ""

/-- A record after one more event on its path ("Found"). -/
def touch (author hash createBy : String) (val : CommitFile) : CommitFile :=
  { Path := val.Path
    Authors := if author ∈ val.Authors then val.Authors else val.Authors ++ [author]
    CommitHash := val.CommitHash ++ [hash]
    CreateBy := if createBy ≠ "" then createBy else val.CreateBy }

/-- The record created by the first event on a path ("Not found"). -/
def freshRecord (path : FilePath) (author hash createBy : String) : CommitFile :=
  { Path := path, Authors := [author], CommitHash := [hash], CreateBy := createBy }

/-- Update-or-insert of one event in a ledger. -/
def upsert (path : FilePath) (author hash createBy : String) : ParseResult → ParseResult
  | [] => [freshRecord path author hash createBy]
  | f :: fs =>
      if path = f.Path then touch author hash createBy f :: fs
      else f :: upsert path author hash createBy fs

/-- The ledger after one more processed entry. -/
def recordEntry (files : ParseResult) (cv : Commit × Change) : ParseResult :=
  upsert (name cv.2) cv.1.AuthorName cv.1.Hash (createByOf cv.1 cv.2) files

/-- The ledger built from a sequence of processed entries. -/
def ledgerOf (es : List (Commit × Change)) : ParseResult :=
  es.foldl recordEntry []

/-- The value of `CreateBy` recorded for a path in a ledger, empty when the
path has no record. -/
def createByAt (path : FilePath) (files : ParseResult) : String :=
  ((files.find? fun f => decide (f.Path = path)).map fun f => f.CreateBy).getD ""

/-- The value left by a sequence of `createBy` values written in turn, each
non-empty one replacing what is there. -/
def lastWins (init : String) (l : List String) : String :=
  l.foldl (fun acc s => if s ≠ "" then s else acc) init

/-- The processed entries of one path that are classified as insertions. -/
def insertionsOf (path : FilePath) (es : List (Commit × Change)) : List (Commit × Change) :=
  es.filter fun cv => decide (name cv.2 = path) && isInsertion cv.2

/-- A history of three commits, newest first: `h3` by Bob modifies `a.go` and
adds `b.txt`, a merge commit touches `a.go`, and the root `h1` by Alice adds
`a.go`. -/
def sampleHistory : List Commit :=
  [commitOf "h3" "Bob" ["h1"] [modificationOf "a.go", insertionOf "b.txt"],
   commitOf "m" "Carol" ["h1", "x"] [modificationOf "a.go"],
   commitOf "h1" "Alice" [] [insertionOf "a.go"]]

/-- A deletion of one path: a From side with the given name, no To side. -/
def deletionOf (path : String) : Change :=
  ⟨⟨path, 1, path, 33188, 1⟩, emptyChange⟩

/-- A shallow history, newest first: `h2` by Alice adds `a.go`; its parent `h1`
by Bob has a parent hash `h0` whose object is missing, so resolving the first
parent of `h1` fails (and no diff is computed for it). -/
def shallowHistory : List Commit :=
  [commitOf "h2" "Alice" ["h1"] [insertionOf "a.go"],
   ⟨"h1", "Bob", ["h0"], false, true, false, none⟩]

/-- A history in which `a.go` is added twice, newest first: `h3` by Alice adds
it again, `h2` by Bob deletes it, and the root `h1`, whose author name is
empty, adds it first. -/
def reinsertedHistory : List Commit :=
  [commitOf "h3" "Alice" ["h2"] [insertionOf "a.go"],
   commitOf "h2" "Bob" ["h1"] [deletionOf "a.go"],
   commitOf "h1" "" [] [insertionOf "a.go"]]

/-- The history of the specification's filter scenario, newest first: `h2` by
Bob modifies `a.txt`, the root `h1` by Alice adds it. -/
def textHistory : List Commit :=
  [commitOf "h2" "Bob" ["h1"] [modificationOf "a.txt"],
   commitOf "h1" "Alice" [] [insertionOf "a.txt"]]

/-- The ledger of the sample history without depth bound and filter. -/
def sampleLedger : ParseResult :=
  [⟨"a.go", ["Bob", "Alice"], ["h3", "h1"], "Alice"⟩, ⟨"b.txt", ["Bob"], ["h3"], "Bob"⟩]

/-- The ledger of the sample history with depth bound 1. -/
def sampleLedgerDepth1 : ParseResult :=
  [⟨"a.go", ["Bob"], ["h3"], ""⟩, ⟨"b.txt", ["Bob"], ["h3"], "Bob"⟩]

/-- The sample history with one more commit on top, in which Bob modifies `a.go`
again. -/
def longerHistory : List Commit :=
  commitOf "h4" "Bob" ["h3"] [modificationOf "a.go"] :: sampleHistory

/-- The record of `a.go` in the history that adds it twice. -/
def reinsertedRecord : CommitFile :=
  ⟨"a.go", ["Alice", "Bob", ""], ["h3", "h2", "h1"], "Alice"⟩

/-- The final extension of a path: the text after its last `.`, if it has one. -/
def finalExtension (path : String) : Option String :=
  if '.' ∈ path.toList then
    some (String.mk (path.toList.reverse.takeWhile fun ch => ch ≠ '.').reverse)
  else none

/-! ## Vocabulary of the statements on histories, order and the flag string -/

/-- The names of a list in order, each kept at its first occurrence only. -/
def keepFirst : List String → List String
  | [] => []
  | a :: l => a :: (keepFirst l).filter fun b => decide (b ≠ a)

/-- Appends a name to a list unless the list has it. -/
def appendNew (acc : List String) (a : String) : List String :=
  if a ∈ acc then acc else acc ++ [a]

/-- The record of a path in a ledger: the first one with that path. -/
def recordAt (path : FilePath) (files : ParseResult) : Option CommitFile :=
  files.find? fun f => decide (f.Path = path)

/-- The processed entries whose canonical name is the given path. -/
def entriesAt (path : FilePath) (es : List (Commit × Change)) : List (Commit × Change) :=
  es.filter fun cv => decide (name cv.2 = path)

/-- The walked commits that have a processed diff entry with the given
canonical name, in traversal order. -/
def commitsTouching (path : FilePath) (cs : List Commit) (depth : Int)
    (extensions : List String) : List Commit :=
  (walked cs depth).filter fun c =>
    (entriesOf c).any fun v => match_extension extensions (name v) && decide (name v = path)

/-- The fields of a text between the occurrences of a separator character. -/
def splitChars (sep : Char) : List Char → List (List Char)
  | [] => [[]]
  | c :: cs =>
      if c = sep then [] :: splitChars sep cs
      else
        match splitChars sep cs with
        | [] => [[c]]
        | f :: fs => (c :: f) :: fs

/-- The function `strings.Split` of Go for a separator of one character: the
substrings of `s` between the occurrences of the separator, a text without the
separator giving the one-element list of itself. -/
def stringsSplit (s : String) (sep : Char) : List String :=
  (splitChars sep s.toList).map String.mk

/-- The function `parse_extensions` of `parser.go`. -/
def parse_extensions (extensions : String) : List String :=
  let extension_slice := stringsSplit extensions ','
  if extension_slice.head? = some "" then [] else extension_slice

/-- The ledger of the longer history without depth bound and filter. -/
def longerLedger : ParseResult :=
  [⟨"a.go", ["Bob", "Alice"], ["h4", "h3", "h1"], "Alice"⟩, ⟨"b.txt", ["Bob"], ["h3"], "Bob"⟩]

/-- A root commit by Alice that adds `a.go` and `b.go`. -/
def rootCommit : Commit :=
  commitOf "h1" "Alice" [] [insertionOf "a.go", insertionOf "b.go"]

/-! ## The commit walker: merge commits and the depth bound -/

theorem visit_merge (depth : Int) (extensions : List String) (st : LoopState) (c : Commit)
    (h : isMerge c = true) : visit depth extensions st c = some st := by
  have h1 : c.ParentHashes.length > 1 := by simpa [isMerge] using h
  simp [visit, h1]

theorem visit_count (depth : Int) (extensions : List String) (st st1 : LoopState)
    (c : Commit) (hc : isMerge c = false) (h : visit depth extensions st c = some st1) :
    st1.count = st.count + 1 := by
  have h1 : ¬ c.ParentHashes.length > 1 := by simpa [isMerge] using hc
  unfold visit at h
  simp only [h1, if_false] at h
  split at h
  · cases h; rfl
  · cases hT : checkIfError c.TreeErr with
    | none => simp [hT] at h
    | some u =>
        simp only [hT, Option.some_bind] at h
        split at h
        · cases h; rfl
        · split at h
          · cases h; rfl
          · split at h
            · simp [checkIfError] at h
            · cases h; rfl

theorem visit_over_depth (depth : Int) (extensions : List String) (st : LoopState)
    (c : Commit) (hc : isMerge c = false) (hd : 0 < depth) (hk : depth ≤ st.count) :
    visit depth extensions st c = some ⟨st.files, st.count + 1⟩ := by
  have h1 : ¬ c.ParentHashes.length > 1 := by simpa [isMerge] using hc
  have h2 : st.count + 1 > depth ∧ depth > 0 := ⟨by omega, hd⟩
  simp [visit, h1, h2]

theorem visit_depth_irrelevant (d1 d2 : Int) (extensions : List String) (st : LoopState)
    (c : Commit) (h1 : d1 ≤ 0 ∨ st.count + 1 ≤ d1) (h2 : d2 ≤ 0 ∨ st.count + 1 ≤ d2) :
    visit d1 extensions st c = visit d2 extensions st c := by
  have g1 : ¬ (st.count + 1 > d1 ∧ d1 > 0) := by omega
  have g2 : ¬ (st.count + 1 > d2 ∧ d2 > 0) := by omega
  unfold visit
  simp only [g1, g2, if_false]

theorem ForEach_nonMerge (depth : Int) (extensions : List String) (cs : List Commit)
    (st : LoopState) :
    ForEach (visit depth extensions) cs st
      = ForEach (visit depth extensions) (nonMerge cs) st := by
  induction cs generalizing st with
  | nil => rfl
  | cons c cs ih =>
      cases hc : isMerge c with
      | true =>
          have hf : nonMerge (c :: cs) = nonMerge cs := by simp [nonMerge, hc]
          rw [hf, ← ih]
          simp [ForEach, visit_merge depth extensions st c hc]
      | false =>
          have hf : nonMerge (c :: cs) = c :: nonMerge cs := by simp [nonMerge, hc]
          rw [hf]
          simp only [ForEach]
          cases visit depth extensions st c with
          | none => rfl
          | some st1 => exact ih st1

theorem nonMerge_idem (cs : List Commit) : nonMerge (nonMerge cs) = nonMerge cs := by
  simp [nonMerge]

theorem isMerge_of_mem_nonMerge (cs : List Commit) (c : Commit) (h : c ∈ nonMerge cs) :
    isMerge c = false := by
  have := (List.mem_filter.mp h).2
  simpa using this

theorem ForEach_over_depth (depth : Int) (extensions : List String) (cs : List Commit)
    (hcs : ∀ c ∈ cs, isMerge c = false) (st : LoopState) (hd : 0 < depth)
    (hk : depth ≤ st.count) :
    (ForEach (visit depth extensions) cs st).map (fun s => s.files) = some st.files := by
  induction cs generalizing st with
  | nil => rfl
  | cons c cs ih =>
      have hc := hcs c (List.mem_cons_self _ _)
      simp only [ForEach, visit_over_depth depth extensions st c hc hd hk]
      have := ih (fun x hx => hcs x (List.mem_cons_of_mem _ hx)) ⟨st.files, st.count + 1⟩
        (by simp; omega)
      simpa using this

theorem ForEach_depth_irrelevant (d1 d2 : Int) (extensions : List String)
    (cs : List Commit) (hcs : ∀ c ∈ cs, isMerge c = false) (st : LoopState)
    (h1 : d1 ≤ 0 ∨ st.count + cs.length ≤ d1) (h2 : d2 ≤ 0 ∨ st.count + cs.length ≤ d2) :
    ForEach (visit d1 extensions) cs st = ForEach (visit d2 extensions) cs st := by
  induction cs generalizing st with
  | nil => rfl
  | cons c cs ih =>
      have hc := hcs c (List.mem_cons_self _ _)
      simp only [List.length_cons, Nat.cast_add, Nat.cast_one] at h1 h2
      have hv := visit_depth_irrelevant d1 d2 extensions st c (by omega) (by omega)
      simp only [ForEach, hv]
      cases hst : visit d2 extensions st c with
      | none => rfl
      | some st1 =>
          have hk := visit_count d2 extensions st st1 c hc hst
          exact ih (fun x hx => hcs x (List.mem_cons_of_mem _ hx)) st1
            (by omega) (by omega)

theorem ForEach_take (D N : Int) (extensions : List String) (cs : List Commit)
    (hcs : ∀ c ∈ cs, isMerge c = false) (st : LoopState) (n : Nat)
    (hD : 0 < D) (hn : st.count + n = D) (hN : D ≤ N) :
    (ForEach (visit D extensions) cs st).map (fun s => s.files)
      = (ForEach (visit N extensions) (cs.take n) st).map (fun s => s.files) := by
  induction cs generalizing st n with
  | nil => simp [ForEach]
  | cons c cs ih =>
      have hc := hcs c (List.mem_cons_self _ _)
      have hrest : ∀ x ∈ cs, isMerge x = false := fun x hx => hcs x (List.mem_cons_of_mem _ hx)
      cases n with
      | zero =>
          rw [ForEach_over_depth D extensions (c :: cs) hcs st hD (by simp at hn; omega)]
          simp [ForEach]
      | succ n =>
          simp only [Nat.cast_add, Nat.cast_one] at hn
          have hv := visit_depth_irrelevant D N extensions st c (by omega) (by omega)
          simp only [List.take_succ_cons, ForEach, hv]
          cases hst : visit N extensions st c with
          | none => rfl
          | some st1 =>
              have hk := visit_count N extensions st st1 c hc hst
              exact ih hrest st1 n (by omega)

/-! ## One diff entry: `exists` and the write-back -/

theorem contains_iff (s : List String) (e : String) : contains s e = true ↔ e ∈ s := by
  induction s with
  | nil => simp [contains]
  | cons a s ih =>
      by_cases h : e = a
      · simp [contains, h]
      · simp [contains, h, ih]

theorem existsFrom_shift (path : FilePath) (files : List CommitFile) (i : Nat) :
    existsFrom path files i
      = (existsFrom path files 0).map fun q => (q.1 + i, q.2) := by
  induction files generalizing i with
  | nil => rfl
  | cons f fs ih =>
      by_cases h : path = f.Path
      · simp [existsFrom, h]
      · simp only [existsFrom, h, if_false]
        rw [ih (i + 1), ih (0 + 1)]
        cases existsFrom path fs 0 with
        | none => rfl
        | some q => simp [Nat.add_comm, Nat.add_left_comm]

theorem exists_set_eq_upsert (path : FilePath) (author hash createBy : String)
    (files : List CommitFile) :
    (match existsFrom path files 0 with
      | some (index, val) => files.set index (touch author hash createBy val)
      | none => files ++ [freshRecord path author hash createBy])
      = upsert path author hash createBy files := by
  induction files with
  | nil => rfl
  | cons f fs ih =>
      by_cases h : path = f.Path
      · simp [existsFrom, upsert, h]
      · simp only [existsFrom, upsert, h, if_false]
        rw [existsFrom_shift path fs (0 + 1), ← ih]
        cases existsFrom path fs 0 with
        | none => rfl
        | some q => rfl

theorem diffEntry_eq (c : Commit) (extensions : List String) (files : ParseResult)
    (v : Change) :
    diffEntry c extensions files v
      = if match_extension extensions (name v) then recordEntry files (c, v) else files := by
  unfold diffEntry
  cases hm : match_extension extensions (name v) with
  | false => simp
  | true =>
      simp only [Bool.not_true, if_true, recordEntry]
      rw [← exists_set_eq_upsert]
      unfold «exists»
      cases hex : existsFrom (name v) files 0 with
      | none => simp [freshRecord, createByOf, isInsertion]
      | some q =>
          obtain ⟨index, val⟩ := q
          simp only [Bool.false_eq_true, if_false]
          have hcb : (if v.Action.1 = Action.Insert then c.AuthorName else "")
              = createByOf c v := by
            simp [createByOf, isInsertion]
          simp only [hcb]
          generalize createByOf c v = cb
          congr 1
          by_cases hin : c.AuthorName ∈ val.Authors
          · have hc : contains val.Authors c.AuthorName = true := (contains_iff _ _).2 hin
            by_cases h : cb = "" <;> simp [touch, hc, hin, h]
          · have hc : contains val.Authors c.AuthorName = false := by
              cases hcc : contains val.Authors c.AuthorName with
              | false => rfl
              | true => exact absurd ((contains_iff _ _).1 hcc) hin
            by_cases h : cb = "" <;> simp [touch, hc, hin, h]

/-! ## `parseCommitLog` as a fold over the processed entries -/

/-- The entries of one commit that pass the filter, each with the commit. -/
theorem foldl_diffEntry (c : Commit) (extensions : List String) (diff : List Change)
    (files : ParseResult) :
    diff.foldl (diffEntry c extensions) files
      = ((diff.filter fun v => match_extension extensions (name v)).map
          fun v => (c, v)).foldl recordEntry files := by
  induction diff generalizing files with
  | nil => rfl
  | cons v vs ih =>
      simp only [List.foldl_cons, diffEntry_eq]
      cases hm : match_extension extensions (name v) with
      | false => simp [List.filter_cons, hm, ih]
      | true => simp [List.filter_cons, hm, ih]

theorem visit_unlimited (depth : Int) (extensions : List String) (st : LoopState)
    (c : Commit) (hc : isMerge c = false) (hd : depth ≤ 0 ∨ st.count + 1 ≤ depth) :
    visit depth extensions st c
      = if fatal c then none
        else some ⟨(((entriesOf c).filter fun v => match_extension extensions (name v)).map
                      fun v => (c, v)).foldl recordEntry st.files, st.count + 1⟩ := by
  have h1 : ¬ c.ParentHashes.length > 1 := by simpa [isMerge] using hc
  have g1 : ¬ (st.count + 1 > depth ∧ depth > 0) := by omega
  unfold visit
  simp only [h1, g1, if_false]
  cases hT : c.TreeErr with
  | true => simp [checkIfError, fatal, hT]
  | false =>
      simp only [checkIfError, Bool.false_eq_true, if_false, Option.some_bind]
      by_cases hp : c.NumParents ≠ 0 ∧ c.FirstParentErr = true
      · have hpo : passedOver c = true := by
          simp [passedOver, hp.1, hp.2]
        simp [hp, fatal, hT, hpo, entriesOf]
      · simp only [hp, if_false]
        by_cases hq : c.NumParents ≠ 0 ∧ c.FirstParentTreeErr = true
        · have hpo : passedOver c = true := by
            simp [passedOver, hq.1, hq.2]
          simp [hq, fatal, hT, hpo, entriesOf]
        · have hpo : passedOver c = false := by
            simp only [passedOver, Bool.and_eq_false_imp, decide_eq_true_eq,
              Bool.or_eq_false_iff]
            intro hn
            constructor
            · cases hf : c.FirstParentErr with
              | false => rfl
              | true => exact absurd ⟨hn, hf⟩ hp
            · cases hf : c.FirstParentTreeErr with
              | false => rfl
              | true => exact absurd ⟨hn, hf⟩ hq
          simp only [hq, if_false]
          cases hD : c.Diff with
          | none => simp [fatal, hT, hpo, hD]
          | some diff =>
              simp [fatal, hT, hpo, hD, entriesOf, foldl_diffEntry]

theorem ForEach_unlimited (depth : Int) (extensions : List String) (cs : List Commit)
    (hcs : ∀ c ∈ cs, isMerge c = false) (st : LoopState)
    (hd : depth ≤ 0 ∨ st.count + cs.length ≤ depth) :
    (ForEach (visit depth extensions) cs st).map (fun s => s.files)
      = if cs.any fatal then none
        else some ((cs.flatMap fun c =>
          ((entriesOf c).filter fun v => match_extension extensions (name v)).map
            fun v => (c, v)).foldl recordEntry st.files) := by
  induction cs generalizing st with
  | nil => simp [ForEach]
  | cons c cs ih =>
      have hc := hcs c (List.mem_cons_self _ _)
      simp only [List.length_cons, Nat.cast_add, Nat.cast_one] at hd
      simp only [ForEach, visit_unlimited depth extensions st c hc (by omega)]
      cases hf : fatal c with
      | true => simp [ForEach, hf]
      | false =>
          simp only [Bool.false_eq_true, if_false, List.any_cons, hf, Bool.false_or,
            List.flatMap_cons, List.foldl_append]
          exact ih (fun x hx => hcs x (List.mem_cons_of_mem _ hx)) _ (by simp; omega)

/-- The whole function: the run is ended exactly when a yielded commit is fatal;
otherwise the ledger is the fold of update-or-insert over the processed entries. -/
theorem parseCommitLog_eq (cs : List Commit) (depth : Int) (extensions : List String) :
    parseCommitLog cs depth extensions
      = if (walked cs depth).any fatal then none
        else some (ledgerOf (processed cs depth extensions)) := by
  have hnm : ∀ c ∈ nonMerge cs, isMerge c = false := isMerge_of_mem_nonMerge cs
  unfold parseCommitLog
  rw [ForEach_nonMerge]
  by_cases hd : depth > 0
  · have hw : walked cs depth = (nonMerge cs).take depth.toNat := by simp [walked, hd]
    have htk : ∀ c ∈ (nonMerge cs).take depth.toNat, isMerge c = false :=
      fun c hc => hnm c (List.mem_of_mem_take hc)
    have hlen : (((nonMerge cs).take depth.toNat).length : Int) ≤ depth := by
      have := List.length_take_le depth.toNat (nonMerge cs)
      omega
    rw [ForEach_take depth depth extensions (nonMerge cs) hnm ⟨[], 0⟩ depth.toNat hd
      (by simp; omega) (le_refl _)]
    rw [ForEach_unlimited depth extensions _ htk ⟨[], 0⟩ (by right; simpa using hlen)]
    simp [processed, ledgerOf, hw]
  · have hw : walked cs depth = nonMerge cs := by simp [walked, hd]
    rw [ForEach_unlimited depth extensions _ hnm ⟨[], 0⟩ (by left; omega)]
    simp [processed, ledgerOf, hw]

/-! ## Invariants of update-or-insert -/

theorem upsert_paths (path : FilePath) (author hash createBy : String)
    (files : ParseResult) :
    (upsert path author hash createBy files).map (fun f => f.Path)
      = if path ∈ files.map (fun f => f.Path) then files.map (fun f => f.Path)
        else files.map (fun f => f.Path) ++ [path] := by
  induction files with
  | nil => simp [upsert, freshRecord]
  | cons f fs ih =>
      by_cases h : path = f.Path
      · simp [upsert, h, touch]
      · simp only [upsert, h, if_false, List.map_cons, ih, List.mem_cons, false_or]
        split <;> simp

theorem upsert_nodup (path : FilePath) (author hash createBy : String)
    (files : ParseResult) (h : (files.map fun f => f.Path).Nodup) :
    ((upsert path author hash createBy files).map fun f => f.Path).Nodup := by
  rw [upsert_paths]
  split
  · exact h
  · rename_i hn
    exact List.Nodup.append h (List.nodup_singleton _) (by
      intro x hx hx1
      simp only [List.mem_singleton] at hx1
      exact hn (hx1 ▸ hx))

theorem foldl_recordEntry_nodup (es : List (Commit × Change)) (files : ParseResult)
    (h : (files.map fun f => f.Path).Nodup) :
    ((es.foldl recordEntry files).map fun f => f.Path).Nodup := by
  induction es generalizing files with
  | nil => exact h
  | cons e es ih => exact ih _ (upsert_nodup _ _ _ _ _ h)

theorem touch_authors_nodup (author hash createBy : String) (val : CommitFile)
    (h : val.Authors.Nodup) : (touch author hash createBy val).Authors.Nodup := by
  unfold touch
  by_cases hin : author ∈ val.Authors
  · simpa [hin] using h
  · simp only [hin, if_false]
    exact List.Nodup.append h (List.nodup_singleton _) (by
      intro x hx hx1
      simp only [List.mem_singleton] at hx1
      exact hin (hx1 ▸ hx))

theorem upsert_authors_nodup (path : FilePath) (author hash createBy : String)
    (files : ParseResult) (h : ∀ f ∈ files, f.Authors.Nodup) :
    ∀ f ∈ upsert path author hash createBy files, f.Authors.Nodup := by
  induction files with
  | nil =>
      intro f hf
      simp only [upsert, List.mem_singleton] at hf
      subst hf
      simp [freshRecord]
  | cons g gs ih =>
      intro f hf
      by_cases hp : path = g.Path
      · simp only [upsert, hp, if_true, List.mem_cons] at hf
        rcases hf with hf | hf
        · subst hf
          exact touch_authors_nodup _ _ _ _ (h g (List.mem_cons_self _ _))
        · exact h f (List.mem_cons_of_mem _ hf)
      · simp only [upsert, hp, if_false, List.mem_cons] at hf
        rcases hf with hf | hf
        · subst hf
          exact h f (List.mem_cons_self _ _)
        · exact ih (fun x hx => h x (List.mem_cons_of_mem _ hx)) f hf

theorem foldl_recordEntry_authors_nodup (es : List (Commit × Change)) (files : ParseResult)
    (h : ∀ f ∈ files, f.Authors.Nodup) :
    ∀ f ∈ es.foldl recordEntry files, f.Authors.Nodup := by
  induction es generalizing files with
  | nil => exact h
  | cons e es ih => exact ih _ (upsert_authors_nodup _ _ _ _ _ h)

/-! ## The extension filter commutes with the ledger -/

theorem upsert_filter (P : FilePath → Bool) (path : FilePath)
    (author hash createBy : String) (files : ParseResult) :
    (upsert path author hash createBy files).filter (fun f => P f.Path)
      = if P path then upsert path author hash createBy (files.filter fun f => P f.Path)
        else files.filter fun f => P f.Path := by
  induction files with
  | nil =>
      cases hP : P path <;> simp [upsert, freshRecord, hP]
  | cons g gs ih =>
      by_cases hp : path = g.Path
      · subst hp
        cases hP : P g.Path <;> simp [upsert, touch, List.filter_cons, hP]
      · cases hg : P g.Path
        · simp only [upsert, hp, if_false, List.filter_cons, hg, Bool.false_eq_true, ih]
        · simp only [upsert, hp, if_false, List.filter_cons, hg, if_true, ih]
          cases hP : P path <;> simp [upsert, hp]

theorem foldl_recordEntry_filter (P : FilePath → Bool) (es : List (Commit × Change))
    (files : ParseResult) :
    (es.foldl recordEntry files).filter (fun f => P f.Path)
      = (es.filter fun cv => P (name cv.2)).foldl recordEntry
          (files.filter fun f => P f.Path) := by
  induction es generalizing files with
  | nil => rfl
  | cons e es ih =>
      simp only [List.foldl_cons, ih, recordEntry, upsert_filter]
      cases hP : P (name e.2) <;> simp [List.filter_cons, hP, recordEntry]

theorem match_extension_nil (path : String) : match_extension [] path = true := by
  simp [match_extension]

theorem processed_filter (cs : List Commit) (depth : Int) (extensions : List String) :
    processed cs depth extensions
      = (processed cs depth []).filter fun cv => match_extension extensions (name cv.2) := by
  simp only [processed, List.filter_flatMap, match_extension_nil, List.filter_true]
  congr 1
  funext c
  rw [List.filter_map]
  rfl

/-! ## The value of `CreateBy` -/

theorem createByAt_upsert (p path : FilePath) (author hash createBy : String)
    (files : ParseResult) :
    createByAt p (upsert path author hash createBy files)
      = if path = p then (if createBy ≠ "" then createBy else createByAt p files)
        else createByAt p files := by
  induction files with
  | nil =>
      by_cases h : path = p
      · by_cases hc : createBy = "" <;> simp [createByAt, upsert, freshRecord, h, hc]
      · simp [createByAt, upsert, freshRecord, h]
  | cons g gs ih =>
      by_cases hg : path = g.Path
      · by_cases hp : path = p
        · have hgp : g.Path = p := hg ▸ hp
          by_cases hc : createBy = "" <;>
            simp [createByAt, upsert, touch, hg, hgp, hc, List.find?_cons]
        · have hgp : ¬ g.Path = p := fun h => hp (hg.trans h)
          simp [createByAt, upsert, touch, hg, hgp, List.find?_cons]
      · by_cases hgp : g.Path = p
        · have hp : ¬ path = p := fun h => hg (h.trans hgp.symm)
          simp [createByAt, upsert, hg, hgp, hp, List.find?_cons]
        · have := ih
          simp only [createByAt] at this
          simp only [createByAt, upsert, hg, if_false, List.find?_cons, hgp,
            decide_False, this]

theorem createByAt_foldl (p : FilePath) (es : List (Commit × Change)) (files : ParseResult) :
    createByAt p (es.foldl recordEntry files)
      = lastWins (createByAt p files)
          ((es.filter fun cv => decide (name cv.2 = p)).map fun cv => createByOf cv.1 cv.2) := by
  induction es generalizing files with
  | nil => rfl
  | cons e es ih =>
      simp only [List.foldl_cons, ih, recordEntry, createByAt_upsert]
      by_cases h : name e.2 = p
      · simp [List.filter_cons, h, lastWins]
      · simp [List.filter_cons, h]

theorem lastWins_createByOf (init : String) (es : List (Commit × Change)) :
    lastWins init (es.map fun cv => createByOf cv.1 cv.2)
      = lastWins init ((es.filter fun cv => isInsertion cv.2).map fun cv => cv.1.AuthorName) := by
  induction es generalizing init with
  | nil => rfl
  | cons e es ih =>
      cases hi : isInsertion e.2 with
      | false =>
          simp only [List.map_cons, lastWins, List.foldl_cons, createByOf, hi,
            Bool.false_eq_true, if_false, List.filter_cons, ne_eq, not_true_eq_false]
          exact ih init
      | true =>
          simp only [List.map_cons, lastWins, List.foldl_cons, createByOf, hi, if_true,
            List.filter_cons]
          exact ih _

theorem lastWins_getLast (init : String) (l : List String) :
    lastWins init l = ((l.filter fun s => decide (s ≠ "")).getLast?).getD init := by
  induction l generalizing init with
  | nil => rfl
  | cons a l ih =>
      simp only [lastWins, List.foldl_cons]
      have := ih (if a ≠ "" then a else init)
      simp only [lastWins] at this
      rw [this]
      by_cases ha : a = ""
      · simp [List.filter_cons, ha]
      · simp only [ne_eq, ha, not_false_eq_true, if_true, List.filter_cons, decide_True]
        cases hl : (l.filter fun s => decide (s ≠ "")) with
        | nil => simp
        | cons b bs =>
            rw [List.getLast?_cons_cons, List.getLast?_eq_getLast _ (List.cons_ne_nil b bs)]
            rfl

theorem find_of_mem_nodup (files : ParseResult) (h : (files.map fun f => f.Path).Nodup)
    (f : CommitFile) (hf : f ∈ files) :
    files.find? (fun g => decide (g.Path = f.Path)) = some f := by
  induction files with
  | nil => cases hf
  | cons g gs ih =>
      simp only [List.map_cons, List.nodup_cons] at h
      rcases List.mem_cons.mp hf with hfg | hfg
      · subst hfg
        simp [List.find?_cons]
      · have hne : ¬ g.Path = f.Path := by
          intro he
          exact h.1 (he ▸ List.mem_map_of_mem (fun f => f.Path) hfg)
        simp only [List.find?_cons, hne, decide_False]
        exact ih h.2 hfg

theorem createByAt_of_mem (files : ParseResult) (h : (files.map fun f => f.Path).Nodup)
    (f : CommitFile) (hf : f ∈ files) : createByAt f.Path files = f.CreateBy := by
  simp [createByAt, find_of_mem_nodup files h f hf]

theorem mem_paths_foldl (p : FilePath) (es : List (Commit × Change)) (files : ParseResult) :
    p ∈ (es.foldl recordEntry files).map (fun f => f.Path)
      ↔ p ∈ files.map (fun f => f.Path) ∨ ∃ cv ∈ es, name cv.2 = p := by
  induction es generalizing files with
  | nil => simp
  | cons e es ih =>
      simp only [List.foldl_cons, ih, recordEntry, upsert_paths]
      by_cases hin : name e.2 ∈ files.map (fun f => f.Path)
      · simp only [hin, if_true, List.mem_cons, exists_eq_or_imp]
        constructor
        · rintro (h | h)
          · exact Or.inl h
          · exact Or.inr (Or.inr h)
        · rintro (h | h | h)
          · exact Or.inl h
          · exact Or.inl (by rw [← h]; exact hin)
          · exact Or.inr h
      · simp only [hin, if_false, List.mem_append, List.mem_singleton, List.mem_cons,
          exists_eq_or_imp, List.not_mem_nil, or_false]
        constructor
        · rintro ((h | h) | h)
          · exact Or.inl h
          · exact Or.inr (Or.inl h.symm)
          · exact Or.inr (Or.inr h)
        · rintro (h | h | h)
          · exact Or.inl (Or.inl h)
          · exact Or.inl (Or.inr h.symm)
          · exact Or.inr h

/-! ## The walker decides the result -/

theorem parseCommitLog_congr (cs cs1 : List Commit) (d d1 : Int) (extensions : List String)
    (h : walked cs d = walked cs1 d1) :
    parseCommitLog cs d extensions = parseCommitLog cs1 d1 extensions := by
  rw [parseCommitLog_eq, parseCommitLog_eq]
  simp only [processed, h]

theorem walked_nonMerge (cs : List Commit) (d : Int) : walked (nonMerge cs) d = walked cs d := by
  simp only [walked, nonMerge_idem]

theorem walked_unbounded (cs : List Commit) (d : Int)
    (h : d ≤ 0 ∨ ((nonMerge cs).length : Int) ≤ d) : walked cs d = nonMerge cs := by
  unfold walked
  split
  · apply List.take_of_length_le
    omega
  · rfl

/-! ## The claims -/

/-- C1. Merge-commit exclusion: `parseCommitLog` returns on a commit sequence
exactly what it returns on the sequence with every merge commit removed, and
from every state of the loop (ledger and counter) the walk over the sequence
ends in the state the walk over the sequence without its merge commits ends
in: a merge commit changes neither the ledger nor the counter. -/
theorem C1_merge_commits_excluded (cs : List Commit) (depth : Int) (extensions : List String) :
    parseCommitLog cs depth extensions = parseCommitLog (nonMerge cs) depth extensions
    ∧ ∀ st : LoopState,
        ForEach (visit depth extensions) cs st
          = ForEach (visit depth extensions) (nonMerge cs) st :=
  ⟨parseCommitLog_congr cs (nonMerge cs) depth depth extensions (walked_nonMerge cs depth).symm,
   fun st => ForEach_nonMerge depth extensions cs st⟩

/-- C2. Prefix property of the depth bound: with `N` non-merge commits in `cs`
and `1 ≤ D < N`, the run on `cs` with depth `D` equals the run with depth `N`
on any sequence whose non-merge commits are the first `D` non-merge commits of
`cs`. -/
theorem C2_depth_bound_truncation (cs cs1 : List Commit) (D : Int) (extensions : List String)
    (h1 : 1 ≤ D) (h2 : D < ((nonMerge cs).length : Int))
    (hcs : nonMerge cs1 = (nonMerge cs).take D.toNat) :
    parseCommitLog cs D extensions
      = parseCommitLog cs1 ((nonMerge cs).length : Int) extensions := by
  apply parseCommitLog_congr
  have hD : D > 0 := by omega
  have hN : ((nonMerge cs).length : Int) > 0 := by omega
  have hlen : (nonMerge cs1).length ≤ (nonMerge cs).length := by
    rw [hcs, List.length_take]
    exact Nat.min_le_right _ _
  simp only [walked, hD, hN, if_true, Int.toNat_ofNat]
  rw [List.take_of_length_le hlen, hcs]

/-- C2, on the sample history: depth 1 against the first commit alone. -/
theorem C2_depth_bound_truncation_witness :
    ((1 : Int) ≤ 1 ∧ (1 : Int) < ((nonMerge sampleHistory).length : Int)
      ∧ nonMerge (sampleHistory.take 1) = (nonMerge sampleHistory).take (1 : Int).toNat)
    ∧ parseCommitLog sampleHistory 1 []
        = parseCommitLog (sampleHistory.take 1) ((nonMerge sampleHistory).length : Int) [] :=
  ⟨⟨by decide, by decide, by decide⟩,
   C2_depth_bound_truncation sampleHistory (sampleHistory.take 1) 1 [] (by decide) (by decide)
    (by decide)⟩

/-- C3. A depth of zero or below is unlimited: the run equals the run with any
bound `N` that is at least the number of non-merge commits, and the commits
walked are all the non-merge commits. -/
theorem C3_nonpositive_depth_unlimited (cs : List Commit) (d N : Int)
    (extensions : List String) (hd : d ≤ 0) (hN : ((nonMerge cs).length : Int) ≤ N) :
    parseCommitLog cs d extensions = parseCommitLog cs N extensions
    ∧ walked cs d = nonMerge cs := by
  have h1 := walked_unbounded cs d (Or.inl hd)
  have h2 := walked_unbounded cs N (Or.inr hN)
  exact ⟨parseCommitLog_congr cs cs d N extensions (h1.trans h2.symm), h1⟩

/-- C3, on the sample history: depth `-1` against depth 2. -/
theorem C3_nonpositive_depth_unlimited_witness :
    ((-1 : Int) ≤ 0 ∧ ((nonMerge sampleHistory).length : Int) ≤ 2)
    ∧ parseCommitLog sampleHistory (-1) [] = parseCommitLog sampleHistory 2 []
    ∧ walked sampleHistory (-1) = nonMerge sampleHistory :=
  ⟨⟨by decide, by decide⟩,
   C3_nonpositive_depth_unlimited sampleHistory (-1) 2 [] (by decide) (by decide)⟩

theorem parseCommitLog_some (cs : List Commit) (depth : Int) (extensions : List String)
    (files : ParseResult) (h : parseCommitLog cs depth extensions = some files) :
    files = ledgerOf (processed cs depth extensions) := by
  rw [parseCommitLog_eq] at h
  split at h
  · cases h
  · exact (Option.some.inj h).symm

/-- C4. Path uniqueness: two records of a returned ledger at different indices
have different paths. -/
theorem C4_path_unique (cs : List Commit) (depth : Int) (extensions : List String)
    (files : ParseResult) (h : parseCommitLog cs depth extensions = some files)
    (i j : Nat) (hi : i < files.length) (hj : j < files.length) (hij : i ≠ j) :
    (files.get ⟨i, hi⟩).Path ≠ (files.get ⟨j, hj⟩).Path := by
  have hnd : (files.map fun f => f.Path).Nodup := by
    rw [parseCommitLog_some cs depth extensions files h]
    exact foldl_recordEntry_nodup _ [] List.nodup_nil
  intro he
  have hi1 : i < (files.map fun f => f.Path).length := by simpa using hi
  have hj1 : j < (files.map fun f => f.Path).length := by simpa using hj
  have hg : (files.map fun f => f.Path).get ⟨i, hi1⟩ = (files.map fun f => f.Path).get ⟨j, hj1⟩ := by
    simpa using he
  have := (List.Nodup.get_inj_iff hnd).1 hg
  exact hij (Fin.mk.inj this)

/-- C4, on the sample history: the two records have different paths. -/
theorem C4_path_unique_witness :
    parseCommitLog sampleHistory 0 [] = some sampleLedger
    ∧ (sampleLedger.get ⟨0, by decide⟩).Path ≠ (sampleLedger.get ⟨1, by decide⟩).Path :=
  ⟨by decide,
   C4_path_unique sampleHistory 0 [] sampleLedger (by decide) 0 1 (by decide) (by decide)
    (by decide)⟩

/-- C5. The `Authors` list of every record of a returned ledger has no
duplicate name. -/
theorem C5_authors_nodup (cs : List Commit) (depth : Int) (extensions : List String)
    (files : ParseResult) (h : parseCommitLog cs depth extensions = some files)
    (f : CommitFile) (hf : f ∈ files) : f.Authors.Nodup := by
  rw [parseCommitLog_some cs depth extensions files h] at hf
  exact foldl_recordEntry_authors_nodup _ [] (by simp) f hf

/-- C5, on a history in which Bob touches `a.go` twice: his name is recorded
once. -/
theorem C5_authors_nodup_witness :
    parseCommitLog longerHistory 0 ["go"]
      = some [⟨"a.go", ["Bob", "Alice"], ["h4", "h3", "h1"], "Alice"⟩]
    ∧ (⟨"a.go", ["Bob", "Alice"], ["h4", "h3", "h1"], "Alice"⟩ : CommitFile).Authors.Nodup :=
  ⟨by decide,
   C5_authors_nodup longerHistory 0 ["go"]
    [⟨"a.go", ["Bob", "Alice"], ["h4", "h3", "h1"], "Alice"⟩]
    (by decide) ⟨"a.go", ["Bob", "Alice"], ["h4", "h3", "h1"], "Alice"⟩ (by decide)⟩

/-- C6. The code at the failing input: with the one extension `go` the path
`main.goo` is accepted, although its final extension `goo` is not listed; the
pattern is `^.*\.(go+)$`, whose `+` repeats the last character of the last
extension. -/
theorem C6_match_extension_accepts_repeated_last_char :
    match_extension ["go"] "main.goo" = true
    ∧ finalExtension "main.goo" = some "goo"
    ∧ "goo" ∉ ["go"] := by
  refine ⟨by decide, by decide, by decide⟩

theorem ledgerOf_filter (extensions : List String) (cs : List Commit) (depth : Int) :
    ledgerOf (processed cs depth extensions)
      = (ledgerOf (processed cs depth [])).filter
          fun f => match_extension extensions f.Path := by
  unfold ledgerOf
  rw [foldl_recordEntry_filter (fun q => match_extension extensions q), ← processed_filter]
  rfl

/-- C7. Filtered entries leave no trace: the run with an allow-list equals the
run with the empty allow-list after the records whose path fails
`match_extension` are deleted (the others unchanged and in the same order, an
ended run staying ended); and when no processed entry has a matching path the
ledger is empty. -/
theorem C7_filtered_entries_leave_no_trace (cs : List Commit) (depth : Int)
    (extensions : List String) :
    parseCommitLog cs depth extensions
      = (parseCommitLog cs depth []).map
          (fun files => files.filter fun f => match_extension extensions f.Path)
    ∧ ((∀ cv ∈ processed cs depth [], match_extension extensions (name cv.2) = false) →
        parseCommitLog cs depth extensions
          = (parseCommitLog cs depth []).map fun _ => []) := by
  constructor
  · rw [parseCommitLog_eq, parseCommitLog_eq]
    split
    · rfl
    · simp only [Option.map_some', ledgerOf_filter extensions cs depth]
  · intro hall
    have hnil : processed cs depth extensions = [] := by
      rw [processed_filter, List.filter_eq_nil_iff]
      intro cv hcv
      simp [hall cv hcv]
    rw [parseCommitLog_eq, parseCommitLog_eq]
    split
    · rfl
    · simp [hnil, ledgerOf]

/-- C7, on the scenario of the specification: `a.txt` added by Alice and
modified by Bob, allow-list `go`; no processed entry matches and the result is
the empty ledger. -/
theorem C7_filtered_entries_leave_no_trace_witness :
    (∀ cv ∈ processed textHistory 0 [], match_extension ["go"] (name cv.2) = false)
    ∧ parseCommitLog textHistory 0 ["go"] = some []
    ∧ parseCommitLog textHistory 0 ["go"]
        = (parseCommitLog textHistory 0 []).map fun _ => [] :=
  ⟨by decide, by decide,
   (C7_filtered_entries_leave_no_trace textHistory 0 ["go"]).2 (by decide)⟩

/-- C8. The code at the failing input: in the shallow history the first parent
of the walked non-merge commit `h1` cannot be resolved; the callback answers
`return nil` there, where the reads of the commit's own tree and of the diff go
through `checkIfError`, so the run is not ended and returns the ledger built
from `h2`. -/
theorem C8_unresolved_parent_not_fatal :
    (∃ c ∈ walked shallowHistory 0, c.NumParents ≠ 0 ∧ c.FirstParentErr = true)
    ∧ parseCommitLog shallowHistory 0 []
        = some [⟨"a.go", ["Alice"], ["h2"], "Alice"⟩] := by
  refine ⟨by decide, by decide⟩

/-- The reads that end the run: the run is ended exactly when a walked commit
has an unreadable tree, or is not passed over and has a failing diff; a walked
commit whose first parent, or first parent's tree, cannot be resolved is passed
over, no entry of it is processed and the walk carries on. -/
theorem parseCommitLog_none_iff (cs : List Commit) (depth : Int) (extensions : List String) :
    (parseCommitLog cs depth extensions = none
      ↔ ∃ c ∈ walked cs depth,
          c.TreeErr = true ∨ (passedOver c = false ∧ c.Diff = none))
    ∧ parseCommitLog cs depth extensions
        = if (walked cs depth).any fatal then none
          else some (ledgerOf (processed cs depth extensions)) := by
  refine ⟨?_, parseCommitLog_eq cs depth extensions⟩
  rw [parseCommitLog_eq]
  constructor
  · intro h
    split at h
    · rename_i hany
      obtain ⟨c, hc, hf⟩ := List.any_eq_true.mp hany
      refine ⟨c, hc, ?_⟩
      simp only [fatal, Bool.or_eq_true, Bool.and_eq_true, Bool.not_eq_true',
        Option.isNone_iff_eq_none] at hf
      exact hf
    · cases h
  · rintro ⟨c, hc, hf⟩
    have hany : (walked cs depth).any fatal = true := by
      refine List.any_eq_true.mpr ⟨c, hc, ?_⟩
      simp only [fatal, Bool.or_eq_true, Bool.and_eq_true, Bool.not_eq_true',
        Option.isNone_iff_eq_none]
      exact hf
    simp [hany]

theorem insertionsOf_eq (p : FilePath) (es : List (Commit × Change)) :
    insertionsOf p es
      = (es.filter fun cv => decide (name cv.2 = p)).filter fun cv => isInsertion cv.2 := by
  simp only [insertionsOf, List.filter_filter]
  congr 1
  funext cv
  exact Bool.and_comm _ _

theorem createBy_of_record (es : List (Commit × Change)) (f : CommitFile)
    (hf : f ∈ ledgerOf es) :
    f.CreateBy = lastWins "" ((insertionsOf f.Path es).map fun cv => cv.1.AuthorName) := by
  have hnd : ((ledgerOf es).map fun g => g.Path).Nodup :=
    foldl_recordEntry_nodup es [] List.nodup_nil
  rw [← createByAt_of_mem (ledgerOf es) hnd f hf, insertionsOf_eq, ← lastWins_createByOf]
  exact createByAt_foldl f.Path es []

/-- C9. `CreateBy` when a path is inserted once: if exactly one processed entry
of the path `p` is classified as an insertion, the ledger has a record for `p`
and its `CreateBy` is the author name of the commit of that entry; if no
processed entry of `p` is an insertion, `CreateBy` of its record is empty. -/
theorem C9_createBy_single_insertion (cs : List Commit) (depth : Int)
    (extensions : List String) (files : ParseResult) (p : FilePath)
    (h : parseCommitLog cs depth extensions = some files) :
    (∀ c v, insertionsOf p (processed cs depth extensions) = [(c, v)] →
        (∃ f ∈ files, f.Path = p) ∧ ∀ f ∈ files, f.Path = p → f.CreateBy = c.AuthorName)
    ∧ (insertionsOf p (processed cs depth extensions) = [] →
        ∀ f ∈ files, f.Path = p → f.CreateBy = "") := by
  have hfiles := parseCommitLog_some cs depth extensions files h
  subst hfiles
  constructor
  · intro c v hins
    constructor
    · have hmem : (c, v) ∈ insertionsOf p (processed cs depth extensions) := by
        rw [hins]; exact List.mem_singleton_self _
      have hm := List.mem_filter.mp hmem
      have hname : name v = p := by
        have := hm.2
        simp only [Bool.and_eq_true, decide_eq_true_eq] at this
        exact this.1
      have hp : p ∈ (ledgerOf (processed cs depth extensions)).map fun f => f.Path :=
        (mem_paths_foldl p _ []).2 (Or.inr ⟨(c, v), hm.1, hname⟩)
      obtain ⟨f, hf, hfp⟩ := List.mem_map.mp hp
      exact ⟨f, hf, hfp⟩
    · intro f hf hfp
      rw [createBy_of_record _ f hf, hfp, hins]
      by_cases ha : c.AuthorName = "" <;> simp [lastWins, ha]
  · intro hins f hf hfp
    rw [createBy_of_record _ f hf, hfp, hins]
    rfl

/-- C9, on the sample history: `a.go` is inserted once, by Alice in the oldest
commit, and its record names Alice; with depth 1 that commit is not walked,
`a.go` has no processed insertion and its `CreateBy` is empty. -/
theorem C9_createBy_single_insertion_witness :
    (parseCommitLog sampleHistory 0 [] = some sampleLedger
      ∧ insertionsOf "a.go" (processed sampleHistory 0 [])
          = [(commitOf "h1" "Alice" [] [insertionOf "a.go"], insertionOf "a.go")]
      ∧ (∃ f ∈ sampleLedger, f.Path = "a.go")
      ∧ ∀ f ∈ sampleLedger, f.Path = "a.go" → f.CreateBy = "Alice")
    ∧ (parseCommitLog sampleHistory 1 [] = some sampleLedgerDepth1
      ∧ insertionsOf "a.go" (processed sampleHistory 1 []) = []
      ∧ ∀ f ∈ sampleLedgerDepth1, f.Path = "a.go" → f.CreateBy = "") :=
  ⟨⟨by decide, by decide,
    (C9_createBy_single_insertion sampleHistory 0 [] sampleLedger "a.go" (by decide)).1
      (commitOf "h1" "Alice" [] [insertionOf "a.go"]) (insertionOf "a.go") (by decide)⟩,
   ⟨by decide, by decide,
    (C9_createBy_single_insertion sampleHistory 1 [] sampleLedgerDepth1 "a.go"
      (by decide)).2 (by decide)⟩⟩

/-- C10, as stated, fails: in the history that adds `a.go` twice the insertion
processed last is the root commit's, whose author name is empty, and the
record keeps the `CreateBy` written by the earlier-processed insertion. -/
theorem C10_empty_author_does_not_overwrite :
    parseCommitLog reinsertedHistory 0 []
      = some [⟨"a.go", ["Alice", "Bob", ""], ["h3", "h2", "h1"], "Alice"⟩]
    ∧ ((insertionsOf "a.go" (processed reinsertedHistory 0 [])).getLast?.map
        fun cv => cv.1.AuthorName) = some ""
    ∧ (⟨"a.go", ["Alice", "Bob", ""], ["h3", "h2", "h1"], "Alice"⟩ : CommitFile).CreateBy
        ≠ "" := by
  refine ⟨by decide, by decide, by decide⟩

/-- C10, amended. Last processed insertion with a non-empty author name wins:
`CreateBy` of every record is the author name of the last-processed insertion
entry of its path among those whose commit has a non-empty author name, and is
empty when there is none. -/
theorem C10_last_named_insertion_wins (cs : List Commit) (depth : Int)
    (extensions : List String) (files : ParseResult)
    (h : parseCommitLog cs depth extensions = some files)
    (f : CommitFile) (hf : f ∈ files) :
    f.CreateBy
      = ((((insertionsOf f.Path (processed cs depth extensions)).map
            fun cv => cv.1.AuthorName).filter fun s => decide (s ≠ "")).getLast?).getD "" := by
  have hfiles := parseCommitLog_some cs depth extensions files h
  subst hfiles
  rw [createBy_of_record _ f hf, lastWins_getLast]

/-- C10 amended, on the history that adds `a.go` twice: the insertions of `a.go`
are by Alice and by the empty name, and `CreateBy` is Alice. -/
theorem C10_last_named_insertion_wins_witness :
    (parseCommitLog reinsertedHistory 0 [] = some [reinsertedRecord]
      ∧ reinsertedRecord ∈ [reinsertedRecord])
    ∧ reinsertedRecord.CreateBy
        = ((((insertionsOf reinsertedRecord.Path (processed reinsertedHistory 0 [])).map
              fun cv => cv.1.AuthorName).filter fun s => decide (s ≠ "")).getLast?).getD "" :=
  ⟨⟨by decide, by decide⟩,
   C10_last_named_insertion_wins reinsertedHistory 0 [] [reinsertedRecord] (by decide)
    reinsertedRecord (by decide)⟩

/-! ## The record of one path -/

theorem recordAt_upsert (p path : FilePath) (author hash createBy : String)
    (files : ParseResult) :
    recordAt p (upsert path author hash createBy files)
      = if path = p then
          some (match recordAt p files with
            | some f => touch author hash createBy f
            | none => freshRecord path author hash createBy)
        else recordAt p files := by
  induction files with
  | nil =>
      by_cases h : path = p <;> simp [recordAt, upsert, freshRecord, h]
  | cons g gs ih =>
      by_cases hg : path = g.Path
      · by_cases hp : path = p
        · have hgp : g.Path = p := hg ▸ hp
          simp [recordAt, upsert, touch, hg, hgp, List.find?_cons]
        · have hgp : ¬ g.Path = p := fun h => hp (hg.trans h)
          simp [recordAt, upsert, touch, hg, hgp, List.find?_cons]
      · by_cases hgp : g.Path = p
        · have hp : ¬ path = p := fun h => hg (h.trans hgp.symm)
          simp [recordAt, upsert, hg, hgp, hp, List.find?_cons]
        · have := ih
          simp only [recordAt] at this
          simp only [recordAt, upsert, hg, if_false, List.find?_cons, hgp,
            decide_False, this]

theorem recordAt_of_mem (files : ParseResult) (h : (files.map fun f => f.Path).Nodup)
    (f : CommitFile) (hf : f ∈ files) : recordAt f.Path files = some f :=
  find_of_mem_nodup files h f hf

theorem commitHash_foldl (p : FilePath) (es : List (Commit × Change)) (files : ParseResult) :
    ((recordAt p (es.foldl recordEntry files)).map fun f => f.CommitHash).getD []
      = ((recordAt p files).map fun f => f.CommitHash).getD []
          ++ (entriesAt p es).map fun cv => cv.1.Hash := by
  induction es generalizing files with
  | nil => simp [entriesAt]
  | cons e es ih =>
      simp only [List.foldl_cons, ih, recordEntry, recordAt_upsert]
      by_cases h : name e.2 = p
      · cases hr : recordAt p files with
        | none => simp [entriesAt, List.filter_cons, h, freshRecord]
        | some f => simp [entriesAt, List.filter_cons, h, touch]
      · simp [entriesAt, List.filter_cons, h]

theorem authors_foldl (p : FilePath) (es : List (Commit × Change)) (files : ParseResult) :
    ((recordAt p (es.foldl recordEntry files)).map fun f => f.Authors).getD []
      = ((entriesAt p es).map fun cv => cv.1.AuthorName).foldl appendNew
          (((recordAt p files).map fun f => f.Authors).getD []) := by
  induction es generalizing files with
  | nil => simp [entriesAt]
  | cons e es ih =>
      simp only [List.foldl_cons, ih, recordEntry, recordAt_upsert]
      by_cases h : name e.2 = p
      · cases hr : recordAt p files with
        | none => simp [entriesAt, List.filter_cons, h, freshRecord, appendNew]
        | some f => simp [entriesAt, List.filter_cons, h, touch, appendNew]
      · simp [entriesAt, List.filter_cons, h]

theorem paths_foldl (es : List (Commit × Change)) (files : ParseResult) :
    (es.foldl recordEntry files).map (fun f => f.Path)
      = (es.map fun cv => name cv.2).foldl appendNew (files.map fun f => f.Path) := by
  induction es generalizing files with
  | nil => rfl
  | cons e es ih =>
      simp only [List.foldl_cons, List.map_cons, ih, recordEntry, upsert_paths, appendNew]

/-! ## Keeping the first occurrence of each name -/

theorem foldl_appendNew (l acc : List String) :
    l.foldl appendNew acc = acc ++ (keepFirst l).filter fun b => decide (b ∉ acc) := by
  induction l generalizing acc with
  | nil => simp [keepFirst]
  | cons a l ih =>
      simp only [List.foldl_cons, ih, keepFirst]
      by_cases ha : a ∈ acc
      · simp only [appendNew, ha, if_true, List.filter_cons, not_true_eq_false,
          decide_False, Bool.false_eq_true, if_false, List.filter_filter]
        congr 1
        apply List.filter_congr
        intro x _
        by_cases hx : x ∈ acc
        · simp [hx]
        · have : x ≠ a := fun h => hx (h ▸ ha)
          simp [hx, this]
      · simp only [appendNew, ha, if_false, List.filter_cons, not_false_eq_true,
          decide_True, if_true, List.filter_filter, List.append_assoc, List.singleton_append]
        congr 2
        apply List.filter_congr
        intro x _
        by_cases hx : x ∈ acc <;> by_cases hxa : x = a <;> simp [hx, hxa]

theorem foldl_appendNew_nil (l : List String) : l.foldl appendNew [] = keepFirst l := by
  rw [foldl_appendNew]
  simp

theorem keepFirst_same_append (a : String) (xs l : List String) (h : ∀ x ∈ xs, x = a) :
    keepFirst (xs ++ l) = if xs = [] then keepFirst l else keepFirst (a :: l) := by
  induction xs with
  | nil => simp
  | cons x xs ih =>
      have hx : x = a := h x (List.mem_cons_self _ _)
      subst hx
      have ih1 := ih fun y hy => h y (List.mem_cons_of_mem _ hy)
      have e1 : keepFirst (x :: (xs ++ l))
          = x :: (keepFirst (xs ++ l)).filter fun b => decide (b ≠ x) := rfl
      have e2 : keepFirst (x :: l) = x :: (keepFirst l).filter fun b => decide (b ≠ x) := rfl
      simp only [List.cons_append, List.cons_ne_nil, if_false]
      rw [e1, e2, ih1]
      split
      · rfl
      · rw [e2]
        simp [List.filter_cons, List.filter_filter]

theorem entriesAt_flatMap (p : FilePath) (ws : List Commit) (g : Commit → List (Commit × Change)) :
    entriesAt p (ws.flatMap g) = ws.flatMap fun c => entriesAt p (g c) := by
  simp only [entriesAt, List.filter_flatMap]

/-- The authors of the entries of one path, commit by commit. -/
theorem keepFirst_authors_by_commit (p : FilePath) (extensions : List String)
    (ws : List Commit) :
    keepFirst ((entriesAt p (ws.flatMap fun c =>
        ((entriesOf c).filter fun v => match_extension extensions (name v)).map
          fun v => (c, v))).map fun cv => cv.1.AuthorName)
      = keepFirst ((ws.filter fun c => (entriesOf c).any fun v =>
          match_extension extensions (name v) && decide (name v = p)).map
            fun c => c.AuthorName) := by
  induction ws with
  | nil => rfl
  | cons c ws ih =>
      rw [entriesAt_flatMap] at ih ⊢
      simp only [List.flatMap_cons, List.map_append]
      have hall : ∀ x ∈ (entriesAt p (((entriesOf c).filter fun v =>
          match_extension extensions (name v)).map fun v => (c, v))).map
            fun cv => cv.1.AuthorName, x = c.AuthorName := by
        intro x hx
        obtain ⟨cv, hcv, rfl⟩ := List.mem_map.mp hx
        have h1 := (List.mem_filter.mp hcv).1
        obtain ⟨v, _, rfl⟩ := List.mem_map.mp h1
        rfl
      rw [keepFirst_same_append c.AuthorName _ _ hall]
      by_cases hany : ((entriesOf c).any fun v =>
          match_extension extensions (name v) && decide (name v = p)) = true
      · have hne : ¬ ((entriesAt p (((entriesOf c).filter fun v =>
            match_extension extensions (name v)).map fun v => (c, v))).map
              fun cv => cv.1.AuthorName) = [] := by
          obtain ⟨v, hv, hp⟩ := List.any_eq_true.mp hany
          simp only [Bool.and_eq_true, decide_eq_true_eq] at hp
          intro hnil
          have hmem : (c, v) ∈ entriesAt p (((entriesOf c).filter fun v =>
              match_extension extensions (name v)).map fun v => (c, v)) := by
            refine List.mem_filter.mpr ⟨List.mem_map.mpr ⟨v, List.mem_filter.mpr ⟨hv, hp.1⟩, rfl⟩, ?_⟩
            simp [hp.2]
          have := List.mem_map_of_mem (fun cv : Commit × Change => cv.1.AuthorName) hmem
          rw [hnil] at this
          cases this
        simp only [hne, if_false, List.filter_cons, hany, if_true, List.map_cons, keepFirst, ih]
      · have hnil : ((entriesAt p (((entriesOf c).filter fun v =>
            match_extension extensions (name v)).map fun v => (c, v))).map
              fun cv => cv.1.AuthorName) = [] := by
          rw [List.map_eq_nil_iff, entriesAt, List.filter_eq_nil_iff]
          intro cv hcv hp
          obtain ⟨v, hv, rfl⟩ := List.mem_map.mp hcv
          have hv1 := List.mem_filter.mp hv
          apply hany
          refine List.any_eq_true.mpr ⟨v, hv1.1, ?_⟩
          simp only [Bool.and_eq_true]
          exact ⟨hv1.2, hp⟩
        simp only [hnil, if_true, List.filter_cons, hany, Bool.false_eq_true, if_false, ih]

theorem ledgerOf_nodup (es : List (Commit × Change)) :
    ((ledgerOf es).map fun f => f.Path).Nodup :=
  foldl_recordEntry_nodup es [] List.nodup_nil

theorem commitHash_of_record (es : List (Commit × Change)) (f : CommitFile)
    (hf : f ∈ ledgerOf es) :
    f.CommitHash = (entriesAt f.Path es).map fun cv => cv.1.Hash := by
  have h := commitHash_foldl f.Path es []
  rw [show es.foldl recordEntry [] = ledgerOf es from rfl,
    recordAt_of_mem (ledgerOf es) (ledgerOf_nodup es) f hf] at h
  simpa [recordAt] using h

theorem authors_of_record (es : List (Commit × Change)) (f : CommitFile)
    (hf : f ∈ ledgerOf es) :
    f.Authors = keepFirst ((entriesAt f.Path es).map fun cv => cv.1.AuthorName) := by
  have h := authors_foldl f.Path es []
  rw [show es.foldl recordEntry [] = ledgerOf es from rfl,
    recordAt_of_mem (ledgerOf es) (ledgerOf_nodup es) f hf] at h
  simpa [recordAt, foldl_appendNew_nil] using h

/-! ## The claims on the contents and the order of the ledger -/

/-- C11. `CommitHash` is the full touch history: the `CommitHash` of every
record of a returned ledger is the sequence of the hashes of the commits of the
processed entries whose canonical name is the record's path, one per entry, in
traversal and diff order, nothing removed; its length is the number of those
entries. -/
theorem C11_commitHash_touch_history (cs : List Commit) (depth : Int)
    (extensions : List String) (files : ParseResult)
    (h : parseCommitLog cs depth extensions = some files)
    (f : CommitFile) (hf : f ∈ files) :
    f.CommitHash
        = (entriesAt f.Path (processed cs depth extensions)).map (fun cv => cv.1.Hash)
    ∧ f.CommitHash.length = (entriesAt f.Path (processed cs depth extensions)).length := by
  have hfiles := parseCommitLog_some cs depth extensions files h
  subst hfiles
  have := commitHash_of_record _ f hf
  exact ⟨this, by rw [this, List.length_map]⟩

/-- C12. `Authors` is ordered by first appearance: the `Authors` of every record
of a returned ledger is the list of the author names of the walked commits
that have a processed entry with the record's path as canonical name, in
traversal order, each name kept at its first occurrence only; the same list is
obtained entry by entry. -/
theorem C12_authors_first_appearance (cs : List Commit) (depth : Int)
    (extensions : List String) (files : ParseResult)
    (h : parseCommitLog cs depth extensions = some files)
    (f : CommitFile) (hf : f ∈ files) :
    f.Authors
        = keepFirst ((commitsTouching f.Path cs depth extensions).map fun c => c.AuthorName)
    ∧ f.Authors
        = keepFirst ((entriesAt f.Path (processed cs depth extensions)).map
            fun cv => cv.1.AuthorName) := by
  have hfiles := parseCommitLog_some cs depth extensions files h
  subst hfiles
  have h2 := authors_of_record _ f hf
  refine ⟨?_, h2⟩
  rw [h2]
  exact keepFirst_authors_by_commit f.Path extensions (walked cs depth)

/-- C13. Result order is order of first discovery: the paths of a returned
ledger, in order, are the canonical names of the processed entries in traversal
order, each kept at its first occurrence only. -/
theorem C13_order_of_first_discovery (cs : List Commit) (depth : Int)
    (extensions : List String) (files : ParseResult)
    (h : parseCommitLog cs depth extensions = some files) :
    files.map (fun f => f.Path)
      = keepFirst ((processed cs depth extensions).map fun cv => name cv.2) := by
  have hfiles := parseCommitLog_some cs depth extensions files h
  subst hfiles
  have := paths_foldl (processed cs depth extensions) []
  simp only [List.map_nil, foldl_appendNew_nil] at this
  exact this

/-- C11, on the longer history: `a.go` is touched by `h4`, `h3` and `h1`. -/
theorem C11_commitHash_touch_history_witness :
    (parseCommitLog longerHistory 0 [] = some longerLedger
      ∧ (⟨"a.go", ["Bob", "Alice"], ["h4", "h3", "h1"], "Alice"⟩ : CommitFile) ∈ longerLedger)
    ∧ (["h4", "h3", "h1"]
          = (entriesAt "a.go" (processed longerHistory 0 [])).map (fun cv => cv.1.Hash)
        ∧ (["h4", "h3", "h1"] : List String).length
          = (entriesAt "a.go" (processed longerHistory 0 [])).length) :=
  ⟨⟨by decide, by decide⟩,
   C11_commitHash_touch_history longerHistory 0 [] longerLedger (by decide)
    ⟨"a.go", ["Bob", "Alice"], ["h4", "h3", "h1"], "Alice"⟩ (by decide)⟩

/-- C12, on the longer history: Bob touches `a.go` twice and is listed once,
before Alice. -/
theorem C12_authors_first_appearance_witness :
    (parseCommitLog longerHistory 0 [] = some longerLedger
      ∧ (⟨"a.go", ["Bob", "Alice"], ["h4", "h3", "h1"], "Alice"⟩ : CommitFile) ∈ longerLedger)
    ∧ (["Bob", "Alice"]
          = keepFirst ((commitsTouching "a.go" longerHistory 0 []).map fun c => c.AuthorName)
        ∧ ["Bob", "Alice"]
          = keepFirst ((entriesAt "a.go" (processed longerHistory 0 [])).map
              fun cv => cv.1.AuthorName)) :=
  ⟨⟨by decide, by decide⟩,
   C12_authors_first_appearance longerHistory 0 [] longerLedger (by decide)
    ⟨"a.go", ["Bob", "Alice"], ["h4", "h3", "h1"], "Alice"⟩ (by decide)⟩

/-- C13, on the longer history: `a.go` is discovered before `b.txt`. -/
theorem C13_order_of_first_discovery_witness :
    parseCommitLog longerHistory 0 [] = some longerLedger
    ∧ longerLedger.map (fun f => f.Path)
        = keepFirst ((processed longerHistory 0 []).map fun cv => name cv.2) :=
  ⟨by decide, C13_order_of_first_discovery longerHistory 0 [] longerLedger (by decide)⟩

/-! ## A root commit, and histories with distinct hashes -/

theorem upsert_of_not_mem (path : FilePath) (author hash createBy : String)
    (files : ParseResult) (h : path ∉ files.map fun f => f.Path) :
    upsert path author hash createBy files
      = files ++ [freshRecord path author hash createBy] := by
  induction files with
  | nil => rfl
  | cons g gs ih =>
      simp only [List.map_cons, List.mem_cons, not_or] at h
      simp only [upsert, h.1, if_false, List.cons_append, ih h.2]

theorem name_of_insertion (v : Change) (h : isInsertion v = true) : name v = v.To.Name := by
  have hA : v.Action.1 = Action.Insert := by simpa [isInsertion] using h
  unfold Change.Action at hA
  unfold name
  by_cases hf : v.From = emptyChange
  · simp [hf]
  · by_cases ht : v.To = emptyChange <;> simp [hf, ht] at hA

theorem foldl_recordEntry_insertions (c : Commit) (diff : List Change) (files : ParseResult)
    (hins : ∀ v ∈ diff, isInsertion v = true)
    (hnd : (diff.map fun v => v.To.Name).Nodup)
    (hdisj : ∀ v ∈ diff, v.To.Name ∉ files.map fun f => f.Path) :
    (diff.map fun v => (c, v)).foldl recordEntry files
      = files ++ diff.map fun v =>
          freshRecord v.To.Name c.AuthorName c.Hash c.AuthorName := by
  induction diff generalizing files with
  | nil => simp
  | cons v vs ih =>
      have hv := hins v (List.mem_cons_self _ _)
      have hname := name_of_insertion v hv
      simp only [List.map_cons, List.nodup_cons] at hnd
      have hstep : recordEntry files (c, v)
          = files ++ [freshRecord v.To.Name c.AuthorName c.Hash c.AuthorName] := by
        simp only [recordEntry, createByOf, hv, if_true, hname]
        exact upsert_of_not_mem _ _ _ _ files (hdisj v (List.mem_cons_self _ _))
      simp only [List.map_cons, List.foldl_cons, hstep]
      rw [ih _ (fun x hx => hins x (List.mem_cons_of_mem _ hx)) hnd.2]
      · simp
      · intro x hx
        simp only [List.map_append, List.map_cons, List.map_nil, List.mem_append,
          List.mem_singleton, freshRecord, not_or]
        refine ⟨hdisj x (List.mem_cons_of_mem _ hx), ?_⟩
        intro he
        exact hnd.1 (he ▸ List.mem_map_of_mem (fun v => v.To.Name) hx)

/-- C14. Root commit: a history of one commit without parents, whose tree is
read and whose diff against the empty tree consists of insertions at pairwise
distinct paths, gives with the empty allow-list and any depth one record per
inserted path, in diff order, each with the commit's author as only author and
as `CreateBy`, and the commit's hash as only hash. -/
theorem C14_root_commit (c : Commit) (depth : Int) (diff : List Change)
    (hroot : c.ParentHashes = []) (htree : c.TreeErr = false) (hdiff : c.Diff = some diff)
    (hins : ∀ v ∈ diff, isInsertion v = true)
    (hnd : (diff.map fun v => v.To.Name).Nodup) :
    parseCommitLog [c] depth []
      = some (diff.map fun v =>
          { Path := v.To.Name, Authors := [c.AuthorName], CommitHash := [c.Hash],
            CreateBy := c.AuthorName }) := by
  have hm : isMerge c = false := by simp [isMerge, hroot]
  have hnm : nonMerge [c] = [c] := by simp [nonMerge, hm]
  have hw : walked [c] depth = [c] := by
    unfold walked
    rw [hnm]
    split
    · rename_i hd
      apply List.take_of_length_le
      simp only [List.length_singleton]
      omega
    · rfl
  have hpo : passedOver c = false := by simp [passedOver, Commit.NumParents, hroot]
  have hfatal : fatal c = false := by simp [fatal, htree, hpo, hdiff]
  have hent : entriesOf c = diff := by simp [entriesOf, hpo, hdiff]
  rw [parseCommitLog_eq, hw]
  simp only [List.any_cons, hfatal, List.any_nil, Bool.or_false, Bool.false_eq_true, if_false,
    processed, hw, List.flatMap_cons, List.flatMap_nil, List.append_nil, hent,
    match_extension_nil, List.filter_true, ledgerOf]
  rw [foldl_recordEntry_insertions c diff [] hins hnd (by simp)]
  simp [freshRecord]

/-- C14, on a root commit by Alice that adds `a.go` and `b.go`, with the depth
bound 5. -/
theorem C14_root_commit_witness :
    (rootCommit.ParentHashes = [] ∧ rootCommit.TreeErr = false
      ∧ rootCommit.Diff = some [insertionOf "a.go", insertionOf "b.go"]
      ∧ (∀ v ∈ [insertionOf "a.go", insertionOf "b.go"], isInsertion v = true)
      ∧ ([insertionOf "a.go", insertionOf "b.go"].map fun v => v.To.Name).Nodup)
    ∧ parseCommitLog [rootCommit] 5 []
        = some ([insertionOf "a.go", insertionOf "b.go"].map fun v =>
            { Path := v.To.Name, Authors := [rootCommit.AuthorName],
              CommitHash := [rootCommit.Hash], CreateBy := rootCommit.AuthorName }) :=
  ⟨⟨by decide, by decide, by decide, by decide, by decide⟩,
   C14_root_commit rootCommit 5 [insertionOf "a.go", insertionOf "b.go"]
    (by decide) (by decide) (by decide) (by decide) (by decide)⟩

theorem filter_length_le_one_of_nodup {α : Type} (g : α → String) (p : String) (l : List α)
    (h : (l.map g).Nodup) : (l.filter fun x => decide (g x = p)).length ≤ 1 := by
  induction l with
  | nil => simp
  | cons a l ih =>
      simp only [List.map_cons, List.nodup_cons] at h
      by_cases ha : g a = p
      · have hnil : (l.filter fun x => decide (g x = p)) = [] := by
          rw [List.filter_eq_nil_iff]
          intro x hx hp
          simp only [decide_eq_true_eq] at hp
          exact h.1 (ha ▸ hp ▸ List.mem_map_of_mem g hx)
        simp [List.filter_cons, ha, hnil]
      · simpa [List.filter_cons, ha] using ih h.2

theorem hashes_of_commit_sublist (p : FilePath) (extensions : List String) (c : Commit)
    (hn : ((entriesOf c).map name).Nodup) :
    ((entriesAt p (((entriesOf c).filter fun v => match_extension extensions (name v)).map
        fun v => (c, v))).map fun cv => cv.1.Hash).Sublist [c.Hash] := by
  have hlen : ((entriesOf c).filter fun v => decide (name v = p)).length ≤ 1 :=
    filter_length_le_one_of_nodup name p (entriesOf c) hn
  have heq : (entriesAt p (((entriesOf c).filter fun v => match_extension extensions (name v)).map
        fun v => (c, v))).map (fun cv => cv.1.Hash)
      = (((entriesOf c).filter fun v => decide (name v = p)).filter
          fun v => match_extension extensions (name v)).map fun _ => c.Hash := by
    simp only [entriesAt, List.filter_map, List.map_map, List.filter_filter]
    congr 1
    apply List.filter_congr
    intro x _
    simp [Bool.and_comm]
  rw [heq]
  cases hl : ((entriesOf c).filter fun v => decide (name v = p)) with
  | nil => simp
  | cons a t =>
      rw [hl] at hlen
      have ht : t = [] := by
        cases t with
        | nil => rfl
        | cons b t => simp at hlen
      subst ht
      by_cases hm : match_extension extensions (name a) = true
      · simp [List.filter_cons, hm]
      · simp [List.filter_cons, hm]

theorem hashes_sublist (p : FilePath) (extensions : List String) (ws : List Commit)
    (hn : ∀ c ∈ ws, ((entriesOf c).map name).Nodup) :
    ((entriesAt p (ws.flatMap fun c =>
        ((entriesOf c).filter fun v => match_extension extensions (name v)).map
          fun v => (c, v))).map fun cv => cv.1.Hash).Sublist
      ((ws.filter fun c => !passedOver c).map fun c => c.Hash) := by
  induction ws with
  | nil => simp [entriesAt]
  | cons c ws ih =>
      have ih1 := ih fun x hx => hn x (List.mem_cons_of_mem _ hx)
      rw [entriesAt_flatMap] at ih1 ⊢
      simp only [List.flatMap_cons, List.map_append]
      cases hpo : passedOver c with
      | true =>
          have hent : entriesOf c = [] := by simp [entriesOf, hpo]
          simp only [hent, List.filter_nil, List.map_nil, entriesAt, List.nil_append,
            List.filter_cons, hpo, Bool.not_true, Bool.false_eq_true, if_false]
          exact ih1
      | false =>
          simp only [List.filter_cons, hpo, Bool.not_false, if_true, List.map_cons]
          have h1 := hashes_of_commit_sublist p extensions c (hn c (List.mem_cons_self _ _))
          exact List.Sublist.append h1 ih1

/-- C15. `CommitHash` without duplicates: when the walked commits that are not
passed over have pairwise distinct hashes and no walked commit has two diff
entries with the same canonical name, the `CommitHash` of every record of the
returned ledger has no duplicate. -/
theorem C15_commitHash_nodup (cs : List Commit) (depth : Int) (extensions : List String)
    (files : ParseResult) (h : parseCommitLog cs depth extensions = some files)
    (hhash : (((walked cs depth).filter fun c => !passedOver c).map fun c => c.Hash).Nodup)
    (hnames : ∀ c ∈ walked cs depth, ((entriesOf c).map name).Nodup)
    (f : CommitFile) (hf : f ∈ files) : f.CommitHash.Nodup := by
  have hfiles := parseCommitLog_some cs depth extensions files h
  subst hfiles
  rw [commitHash_of_record _ f hf]
  exact List.Nodup.sublist (hashes_sublist f.Path extensions (walked cs depth) hnames) hhash

/-- C15, on the longer history: its hashes are distinct and no commit names a
path twice. -/
theorem C15_commitHash_nodup_witness :
    (parseCommitLog longerHistory 0 [] = some longerLedger
      ∧ (((walked longerHistory 0).filter fun c => !passedOver c).map fun c => c.Hash).Nodup
      ∧ (∀ c ∈ walked longerHistory 0, ((entriesOf c).map name).Nodup)
      ∧ (⟨"a.go", ["Bob", "Alice"], ["h4", "h3", "h1"], "Alice"⟩ : CommitFile) ∈ longerLedger)
    ∧ (["h4", "h3", "h1"] : List String).Nodup :=
  ⟨⟨by decide, by decide, by decide, by decide⟩,
   C15_commitHash_nodup longerHistory 0 [] longerLedger (by decide) (by decide) (by decide)
    ⟨"a.go", ["Bob", "Alice"], ["h4", "h3", "h1"], "Alice"⟩ (by decide)⟩

/-! ## The canonical name of a change -/

theorem mem_keepFirst (a : String) (l : List String) : a ∈ keepFirst l ↔ a ∈ l := by
  induction l with
  | nil => simp [keepFirst]
  | cons b l ih =>
      simp only [keepFirst, List.mem_cons, List.mem_filter, ih, decide_eq_true_eq]
      by_cases h : a = b <;> simp [h]

theorem name_of_from (v : Change) (h : v.From ≠ emptyChange) : name v = v.From.Name := by
  simp [name, h]

theorem from_of_delete_or_modify (v : Change)
    (h : v.Action.1 = Action.Delete ∨ v.Action.1 = Action.Modify) : v.From ≠ emptyChange := by
  intro hf
  unfold Change.Action at h
  by_cases ht : v.To = emptyChange <;> simp [hf, ht] at h

/-- C16. Canonical path of a change: `name` is the From entry's name when the
From entry is not the empty change entry and the To entry's name otherwise;
so a deletion or a modification goes under the pre-change path and an
insertion under the post-change path; and for every processed entry that is a
deletion, the returned ledger has a record of the deleted path that holds the
author and the hash of the deleting commit. -/
theorem C16_canonical_name (v : Change) :
    (v.From ≠ emptyChange → name v = v.From.Name)
    ∧ (v.From = emptyChange → name v = v.To.Name)
    ∧ (v.Action.1 = Action.Delete ∨ v.Action.1 = Action.Modify → name v = v.From.Name)
    ∧ (v.Action.1 = Action.Insert → name v = v.To.Name)
    ∧ ∀ (cs : List Commit) (depth : Int) (extensions : List String) (files : ParseResult)
        (c : Commit),
        parseCommitLog cs depth extensions = some files →
        (c, v) ∈ processed cs depth extensions →
        v.Action.1 = Action.Delete →
        ∃ f ∈ files, f.Path = v.From.Name ∧ c.AuthorName ∈ f.Authors ∧ c.Hash ∈ f.CommitHash := by
  refine ⟨name_of_from v, ?_, ?_, ?_, ?_⟩
  · intro h
    simp [name, h]
  · intro h
    exact name_of_from v (from_of_delete_or_modify v h)
  · intro h
    exact name_of_insertion v (by simp [isInsertion, h])
  · intro cs depth extensions files c hp hmem hdel
    have hfiles := parseCommitLog_some cs depth extensions files hp
    subst hfiles
    have hname : name v = v.From.Name :=
      name_of_from v (from_of_delete_or_modify v (Or.inl hdel))
    have hpath : v.From.Name ∈ (ledgerOf (processed cs depth extensions)).map fun f => f.Path :=
      (mem_paths_foldl v.From.Name _ []).2 (Or.inr ⟨(c, v), hmem, hname⟩)
    obtain ⟨f, hf, hfp⟩ := List.mem_map.mp hpath
    have hat : (c, v) ∈ entriesAt f.Path (processed cs depth extensions) := by
      refine List.mem_filter.mpr ⟨hmem, ?_⟩
      simp [hname, hfp]
    refine ⟨f, hf, hfp, ?_, ?_⟩
    · rw [authors_of_record _ f hf, mem_keepFirst]
      exact List.mem_map_of_mem (fun cv : Commit × Change => cv.1.AuthorName) hat
    · rw [commitHash_of_record _ f hf]
      exact List.mem_map_of_mem (fun cv : Commit × Change => cv.1.Hash) hat

/-- C16, on the history that adds `a.go` twice: the deletion by Bob in `h2` goes
under `a.go`, whose record holds Bob and `h2`. -/
theorem C16_canonical_name_witness :
    ((deletionOf "a.go").From ≠ emptyChange
      ∧ parseCommitLog reinsertedHistory 0 [] = some [reinsertedRecord]
      ∧ (commitOf "h2" "Bob" ["h1"] [deletionOf "a.go"], deletionOf "a.go")
          ∈ processed reinsertedHistory 0 []
      ∧ (deletionOf "a.go").Action.1 = Action.Delete)
    ∧ name (deletionOf "a.go") = (deletionOf "a.go").From.Name
    ∧ ∃ f ∈ [reinsertedRecord], f.Path = (deletionOf "a.go").From.Name
        ∧ (commitOf "h2" "Bob" ["h1"] [deletionOf "a.go"]).AuthorName ∈ f.Authors
        ∧ (commitOf "h2" "Bob" ["h1"] [deletionOf "a.go"]).Hash ∈ f.CommitHash :=
  ⟨⟨by decide, by decide, by decide, by decide⟩,
   (C16_canonical_name (deletionOf "a.go")).1 (by decide),
   (C16_canonical_name (deletionOf "a.go")).2.2.2.2 reinsertedHistory 0 [] [reinsertedRecord]
    (commitOf "h2" "Bob" ["h1"] [deletionOf "a.go"]) (by decide) (by decide) (by decide)⟩

/-! ## Locality of one update -/

theorem upsert_getElem (path : FilePath) (author hash createBy : String)
    (files : ParseResult) (i : Nat) (r : CommitFile) (h : files[i]? = some r) :
    ∃ r1, (upsert path author hash createBy files)[i]? = some r1
      ∧ r1.Path = r.Path ∧ r.Authors <+: r1.Authors ∧ r.CommitHash <+: r1.CommitHash
      ∧ (r.Path ≠ path → r1 = r) := by
  induction files generalizing i with
  | nil => simp at h
  | cons g gs ih =>
      by_cases hg : path = g.Path
      · cases i with
        | zero =>
            simp only [List.getElem?_cons_zero, Option.some.injEq] at h
            subst h
            refine ⟨touch author hash createBy g, by simp [upsert, hg], rfl, ?_, ?_, ?_⟩
            · unfold touch
              by_cases ha : author ∈ g.Authors
              · simp [ha]
              · simp [ha]
            · simp [touch]
            · intro hne
              exact absurd hg.symm hne
        | succ i =>
            simp only [List.getElem?_cons_succ] at h
            exact ⟨r, by simp [upsert, hg, h], rfl, List.prefix_refl _, List.prefix_refl _,
              fun _ => rfl⟩
      · cases i with
        | zero =>
            simp only [List.getElem?_cons_zero, Option.some.injEq] at h
            subst h
            exact ⟨g, by simp [upsert, hg], rfl, List.prefix_refl _, List.prefix_refl _,
              fun _ => rfl⟩
        | succ i =>
            simp only [List.getElem?_cons_succ] at h
            obtain ⟨r1, h1, h2⟩ := ih i h
            exact ⟨r1, by simp [upsert, hg, h1], h2⟩

theorem upsert_length (path : FilePath) (author hash createBy : String)
    (files : ParseResult) (h : path ∈ files.map fun f => f.Path) :
    (upsert path author hash createBy files).length = files.length := by
  have := congrArg List.length (upsert_paths path author hash createBy files)
  simpa [h] using this

theorem paths_prefix_upsert (path : FilePath) (author hash createBy : String)
    (files : ParseResult) :
    files.map (fun f => f.Path) <+: (upsert path author hash createBy files).map fun f => f.Path := by
  rw [upsert_paths]
  split
  · exact List.prefix_refl _
  · exact List.prefix_append _ _

theorem paths_prefix_diffEntry (c : Commit) (extensions : List String) (files : ParseResult)
    (v : Change) :
    files.map (fun f => f.Path) <+: (diffEntry c extensions files v).map fun f => f.Path := by
  rw [diffEntry_eq]
  split
  · exact paths_prefix_upsert _ _ _ _ _
  · exact List.prefix_refl _

theorem paths_prefix_foldl_diffEntry (c : Commit) (extensions : List String)
    (diff : List Change) (files : ParseResult) :
    files.map (fun f => f.Path)
      <+: (diff.foldl (diffEntry c extensions) files).map fun f => f.Path := by
  induction diff generalizing files with
  | nil => exact List.prefix_refl _
  | cons v vs ih =>
      exact List.IsPrefix.trans (paths_prefix_diffEntry c extensions files v) (ih _)

theorem paths_prefix_visit (depth : Int) (extensions : List String) (st st1 : LoopState)
    (c : Commit) (h : visit depth extensions st c = some st1) :
    st.files.map (fun f => f.Path) <+: st1.files.map fun f => f.Path := by
  cases hc : isMerge c with
  | true =>
      rw [visit_merge depth extensions st c hc] at h
      cases h
      exact List.prefix_refl _
  | false =>
      have h1 : ¬ c.ParentHashes.length > 1 := by simpa [isMerge] using hc
      unfold visit at h
      simp only [h1, if_false] at h
      split at h
      · cases h; exact List.prefix_refl _
      · cases hT : checkIfError c.TreeErr with
        | none => simp [hT] at h
        | some u =>
            simp only [hT, Option.some_bind] at h
            split at h
            · cases h; exact List.prefix_refl _
            · split at h
              · cases h; exact List.prefix_refl _
              · split at h
                · simp [checkIfError] at h
                · cases h
                  exact paths_prefix_foldl_diffEntry c extensions _ _

theorem paths_prefix_ForEach (depth : Int) (extensions : List String) (cs : List Commit)
    (st st1 : LoopState) (h : ForEach (visit depth extensions) cs st = some st1) :
    st.files.map (fun f => f.Path) <+: st1.files.map fun f => f.Path := by
  induction cs generalizing st with
  | nil =>
      simp only [ForEach, Option.some.injEq] at h
      subst h
      exact List.prefix_refl _
  | cons c cs ih =>
      simp only [ForEach] at h
      cases hv : visit depth extensions st c with
      | none => simp [hv] at h
      | some st2 =>
          simp only [hv] at h
          exact List.IsPrefix.trans (paths_prefix_visit depth extensions st st2 c hv) (ih st2 h)

/-- C17. Ledger updates are local and never delete: after one diff entry with
canonical name `p`, every record of the ledger is still at its index with the
same path, its authors and hashes a prefix of the new ones, and unchanged when
its path is not `p`; the length is unchanged (and `p` had a record, or nothing
changed) or the ledger is the old one followed by one new record for `p`; and
through any further commits the paths of the ledger stay, in order, at the
front of the paths of the later ledger. -/
theorem C17_updates_local (c : Commit) (extensions : List String) (files : ParseResult)
    (v : Change) :
    (∀ (i : Nat) (r : CommitFile), files[i]? = some r →
        ∃ r1, (diffEntry c extensions files v)[i]? = some r1
          ∧ r1.Path = r.Path ∧ r.Authors <+: r1.Authors ∧ r.CommitHash <+: r1.CommitHash
          ∧ (r.Path ≠ name v → r1 = r))
    ∧ (((diffEntry c extensions files v).length = files.length
          ∧ (name v ∈ files.map (fun f => f.Path) ∨ diffEntry c extensions files v = files))
        ∨ (name v ∉ files.map (fun f => f.Path)
          ∧ ∃ r, diffEntry c extensions files v = files ++ [r] ∧ r.Path = name v))
    ∧ ∀ (depth : Int) (cs : List Commit) (st st1 : LoopState),
        ForEach (visit depth extensions) cs st = some st1 →
        st.files.map (fun f => f.Path) <+: st1.files.map fun f => f.Path := by
  refine ⟨?_, ?_, fun depth cs st st1 h => paths_prefix_ForEach depth extensions cs st st1 h⟩
  · intro i r hr
    rw [diffEntry_eq]
    split
    · exact upsert_getElem _ _ _ _ files i r hr
    · exact ⟨r, hr, rfl, List.prefix_refl _, List.prefix_refl _, fun _ => rfl⟩
  · rw [diffEntry_eq]
    split
    · by_cases hin : name v ∈ files.map fun f => f.Path
      · exact Or.inl ⟨upsert_length _ _ _ _ files hin, Or.inl hin⟩
      · refine Or.inr ⟨hin, _, upsert_of_not_mem _ _ _ _ files hin, rfl⟩
    · exact Or.inl ⟨rfl, Or.inr rfl⟩

/-- C17, on the sample ledger: a modification of `a.go` by Dan in `h9` leaves
the record of `b.txt` at index 1 as it is, and the walk over the sample history
from the empty ledger keeps the (empty) list of paths at the front. -/
theorem C17_updates_local_witness :
    (sampleLedger[1]? = some ⟨"b.txt", ["Bob"], ["h3"], "Bob"⟩
      ∧ ForEach (visit 0 []) sampleHistory ⟨[], 0⟩ = some ⟨sampleLedger, 2⟩)
    ∧ (∃ r1, (diffEntry (commitOf "h9" "Dan" ["h3"] [modificationOf "a.go"]) [] sampleLedger
          (modificationOf "a.go"))[1]? = some r1
        ∧ r1.Path = "b.txt" ∧ ["Bob"] <+: r1.Authors ∧ ["h3"] <+: r1.CommitHash
        ∧ ("b.txt" ≠ name (modificationOf "a.go") → r1 = ⟨"b.txt", ["Bob"], ["h3"], "Bob"⟩))
    ∧ ([] : ParseResult).map (fun f => f.Path) <+: sampleLedger.map fun f => f.Path :=
  ⟨⟨by decide, by decide⟩,
   (C17_updates_local (commitOf "h9" "Dan" ["h3"] [modificationOf "a.go"]) [] sampleLedger
      (modificationOf "a.go")).1 1 ⟨"b.txt", ["Bob"], ["h3"], "Bob"⟩ (by decide),
   (C17_updates_local (commitOf "h9" "Dan" ["h3"] [modificationOf "a.go"]) [] sampleLedger
      (modificationOf "a.go")).2.2 0 sampleHistory ⟨[], 0⟩ ⟨sampleLedger, 2⟩ (by decide)⟩

/-! ## Invariants of the records -/

theorem upsert_invariant (P : CommitFile → Prop) (path : FilePath)
    (author hash createBy : String) (files : ParseResult)
    (hfresh : P (freshRecord path author hash createBy))
    (htouch : ∀ f, P f → P (touch author hash createBy f))
    (h : ∀ f ∈ files, P f) :
    ∀ f ∈ upsert path author hash createBy files, P f := by
  induction files with
  | nil =>
      intro f hf
      simp only [upsert, List.mem_singleton] at hf
      subst hf
      exact hfresh
  | cons g gs ih =>
      intro f hf
      by_cases hp : path = g.Path
      · simp only [upsert, hp, if_true, List.mem_cons] at hf
        rcases hf with hf | hf
        · subst hf
          exact htouch g (h g (List.mem_cons_self _ _))
        · exact h f (List.mem_cons_of_mem _ hf)
      · simp only [upsert, hp, if_false, List.mem_cons] at hf
        rcases hf with hf | hf
        · subst hf
          exact h f (List.mem_cons_self _ _)
        · exact ih (fun x hx => h x (List.mem_cons_of_mem _ hx)) f hf

theorem ledger_invariant (P : CommitFile → Prop)
    (hfresh : ∀ (c : Commit) (v : Change),
      P (freshRecord (name v) c.AuthorName c.Hash (createByOf c v)))
    (htouch : ∀ (c : Commit) (v : Change) (f : CommitFile),
      P f → P (touch c.AuthorName c.Hash (createByOf c v) f))
    (es : List (Commit × Change)) (files : ParseResult) (h : ∀ f ∈ files, P f) :
    ∀ f ∈ es.foldl recordEntry files, P f := by
  induction es generalizing files with
  | nil => exact h
  | cons e es ih =>
      exact ih _ (upsert_invariant P _ _ _ _ files (hfresh e.1 e.2) (htouch e.1 e.2) h)

theorem touch_createBy_among (author hash createBy : String) (g : CommitFile)
    (hcb : createBy = "" ∨ createBy = author)
    (hg : g.CreateBy = "" ∨ g.CreateBy ∈ g.Authors) :
    (touch author hash createBy g).CreateBy = ""
      ∨ (touch author hash createBy g).CreateBy ∈ (touch author hash createBy g).Authors := by
  have hsub : ∀ x ∈ g.Authors, x ∈ (touch author hash createBy g).Authors := by
    intro x hx
    unfold touch
    by_cases hin : author ∈ g.Authors
    · simpa [hin] using hx
    · simp [hin, hx]
  have hauth : author ∈ (touch author hash createBy g).Authors := by
    unfold touch
    by_cases hin : author ∈ g.Authors
    · simp [hin]
    · simp [hin]
  by_cases he : createBy = ""
  · have hcr : (touch author hash createBy g).CreateBy = g.CreateBy := by simp [touch, he]
    rw [hcr]
    exact hg.imp id (hsub _)
  · have hcr : (touch author hash createBy g).CreateBy = createBy := by simp [touch, he]
    rw [hcr]
    rcases hcb with hcb | hcb
    · exact absurd hcb he
    · exact Or.inr (hcb ▸ hauth)

theorem createByOf_cases (c : Commit) (v : Change) :
    createByOf c v = "" ∨ createByOf c v = c.AuthorName := by
  unfold createByOf
  split
  · exact Or.inr rfl
  · exact Or.inl rfl

/-- C18. `CreateBy` is one of the file's authors: `CreateBy` of every record of
a returned ledger is empty or a member of the record's `Authors`. -/
theorem C18_createBy_among_authors (cs : List Commit) (depth : Int)
    (extensions : List String) (files : ParseResult)
    (h : parseCommitLog cs depth extensions = some files)
    (f : CommitFile) (hf : f ∈ files) : f.CreateBy = "" ∨ f.CreateBy ∈ f.Authors := by
  have hfiles := parseCommitLog_some cs depth extensions files h
  subst hfiles
  refine ledger_invariant (fun f => f.CreateBy = "" ∨ f.CreateBy ∈ f.Authors) ?_ ?_
    (processed cs depth extensions) [] (by simp) f hf
  · intro c v
    rcases createByOf_cases c v with hcb | hcb
    · exact Or.inl (by simp [freshRecord, hcb])
    · exact Or.inr (by simp [freshRecord, hcb])
  · intro c v g hg
    exact touch_createBy_among _ _ _ g (createByOf_cases c v) hg

/-- C18, on the sample history: `CreateBy` of `a.go` is Alice, one of its
authors. -/
theorem C18_createBy_among_authors_witness :
    (parseCommitLog sampleHistory 0 [] = some sampleLedger
      ∧ (⟨"a.go", ["Bob", "Alice"], ["h3", "h1"], "Alice"⟩ : CommitFile) ∈ sampleLedger)
    ∧ ("Alice" = "" ∨ "Alice" ∈ ["Bob", "Alice"]) :=
  ⟨⟨by decide, by decide⟩,
   C18_createBy_among_authors sampleHistory 0 [] sampleLedger (by decide)
    ⟨"a.go", ["Bob", "Alice"], ["h3", "h1"], "Alice"⟩ (by decide)⟩

/-- C20. Records are never empty: every record of a returned ledger has at
least one author, and no more authors than commit hashes. -/
theorem C20_records_nonempty (cs : List Commit) (depth : Int) (extensions : List String)
    (files : ParseResult) (h : parseCommitLog cs depth extensions = some files)
    (f : CommitFile) (hf : f ∈ files) :
    1 ≤ f.Authors.length ∧ f.Authors.length ≤ f.CommitHash.length := by
  have hfiles := parseCommitLog_some cs depth extensions files h
  subst hfiles
  refine ledger_invariant
    (fun f => 1 ≤ f.Authors.length ∧ f.Authors.length ≤ f.CommitHash.length) ?_ ?_
    (processed cs depth extensions) [] (by simp) f hf
  · intro c v
    simp [freshRecord]
  · intro c v g hg
    by_cases hin : c.AuthorName ∈ g.Authors
    · simp only [touch, hin, if_true, List.length_append, List.length_singleton]
      omega
    · simp only [touch, hin, if_false, List.length_append, List.length_singleton]
      omega

/-- C20, on the longer history: `a.go` has two authors and three hashes. -/
theorem C20_records_nonempty_witness :
    (parseCommitLog longerHistory 0 [] = some longerLedger
      ∧ (⟨"a.go", ["Bob", "Alice"], ["h4", "h3", "h1"], "Alice"⟩ : CommitFile) ∈ longerLedger)
    ∧ (1 ≤ (["Bob", "Alice"] : List String).length
      ∧ (["Bob", "Alice"] : List String).length ≤ (["h4", "h3", "h1"] : List String).length) :=
  ⟨⟨by decide, by decide⟩,
   C20_records_nonempty longerHistory 0 [] longerLedger (by decide)
    ⟨"a.go", ["Bob", "Alice"], ["h4", "h3", "h1"], "Alice"⟩ (by decide)⟩

/-! ## The flag string of the allow-list -/

theorem splitChars_ne_nil (sep : Char) (cs : List Char) : splitChars sep cs ≠ [] := by
  cases cs with
  | nil => simp [splitChars]
  | cons c cs =>
      unfold splitChars
      split
      · simp
      · split <;> simp

theorem splitChars_join (sep : Char) (cs f : List Char) (fs : List (List Char))
    (h : splitChars sep cs = f :: fs) :
    f ++ fs.flatMap (fun g => sep :: g) = cs := by
  induction cs generalizing f fs with
  | nil =>
      simp only [splitChars, List.cons.injEq] at h
      obtain ⟨rfl, rfl⟩ := h
      rfl
  | cons c cs ih =>
      unfold splitChars at h
      by_cases hc : c = sep
      · simp only [hc, if_true, List.cons.injEq] at h
        obtain ⟨rfl, rfl⟩ := h
        cases hs : splitChars sep cs with
        | nil => exact absurd hs (splitChars_ne_nil sep cs)
        | cons g gs =>
            have := ih g gs hs
            simp only [List.flatMap_cons, List.nil_append, List.cons_append, hc]
            rw [← this]
      · simp only [hc, if_false] at h
        cases hs : splitChars sep cs with
        | nil => exact absurd hs (splitChars_ne_nil sep cs)
        | cons g gs =>
            rw [hs] at h
            simp only [List.cons.injEq] at h
            obtain ⟨rfl, rfl⟩ := h
            have := ih g gs hs
            simp only [List.cons_append, this]

theorem splitChars_no_sep (sep : Char) (cs : List Char) :
    ∀ f ∈ splitChars sep cs, sep ∉ f := by
  induction cs with
  | nil => simp [splitChars]
  | cons c cs ih =>
      intro f hf
      unfold splitChars at hf
      by_cases hc : c = sep
      · simp only [hc, if_true, List.mem_cons] at hf
        rcases hf with hf | hf
        · subst hf
          simp
        · exact ih f hf
      · simp only [hc, if_false] at hf
        cases hs : splitChars sep cs with
        | nil => exact absurd hs (splitChars_ne_nil sep cs)
        | cons g gs =>
            rw [hs] at hf ih
            simp only [List.mem_cons] at hf
            rcases hf with hf | hf
            · subst hf
              intro hmem
              rcases List.mem_cons.mp hmem with hm | hm
              · exact hc hm.symm
              · exact ih g (List.mem_cons_self _ _) hm
            · exact ih f (List.mem_cons_of_mem _ hf)

theorem splitChars_head (sep : Char) (cs : List Char) :
    (splitChars sep cs).head? = some [] ↔ cs = [] ∨ cs.head? = some sep := by
  cases cs with
  | nil => simp [splitChars]
  | cons c cs =>
      unfold splitChars
      by_cases hc : c = sep
      · simp [hc]
      · simp only [hc, if_false, List.head?_cons, Option.some.injEq, false_or, reduceCtorEq]
        cases hs : splitChars sep cs with
        | nil => simp
        | cons g gs => simp

theorem intercalate_go_data (acc sep : String) (l : List String) :
    (String.intercalate.go acc sep l).data
      = acc.data ++ l.flatMap fun a => sep.data ++ a.data := by
  induction l generalizing acc with
  | nil => simp [String.intercalate.go]
  | cons a l ih =>
      simp only [String.intercalate.go, ih, String.data_append, List.flatMap_cons,
        List.append_assoc]

theorem stringsJoin_stringsSplit (s : String) : stringsJoin (stringsSplit s ',') "," = s := by
  apply String.ext
  unfold stringsJoin stringsSplit
  cases hs : splitChars ',' s.toList with
  | nil => exact absurd hs (splitChars_ne_nil ',' s.toList)
  | cons f fs =>
      have hj := splitChars_join ',' s.toList f fs hs
      simp only [List.map_cons, String.intercalate, intercalate_go_data]
      rw [← show s.toList = s.data from rfl, ← hj]
      congr 1
      simp only [List.flatMap_map]
      rfl

/-- C19. The flag string as an allow-list: `parse_extensions s` is the empty
list (the filter then allows every path) exactly when `s` is empty or begins
with a comma; otherwise it is the list of all the fields of `s` between its
commas, in order, empty fields included: the fields hold no comma and joined
with commas give `s` back. -/
theorem C19_parse_extensions (s : String) :
    (parse_extensions s = [] ↔ (s = "" ∨ s.toList.head? = some ','))
    ∧ (¬ (s = "" ∨ s.toList.head? = some ',') →
        parse_extensions s = stringsSplit s ','
        ∧ stringsJoin (parse_extensions s) "," = s
        ∧ ∀ f ∈ parse_extensions s, ',' ∉ f.toList)
    ∧ (parse_extensions s = [] → ∀ path, match_extension (parse_extensions s) path = true) := by
  have hhead : (stringsSplit s ',').head? = some "" ↔ (s = "" ∨ s.toList.head? = some ',') := by
    have h1 := splitChars_head ',' s.toList
    have h2 : (stringsSplit s ',').head? = some ""
        ↔ (splitChars ',' s.toList).head? = some [] := by
      unfold stringsSplit
      cases splitChars ',' s.toList with
      | nil => simp
      | cons f fs =>
          simp only [List.map_cons, List.head?_cons, Option.some.injEq]
          constructor
          · intro h
            have := congrArg String.data h
            simpa using this
          · intro h
            subst h
            rfl
    have h3 : s.toList = [] ↔ s = "" := by
      constructor
      · intro h
        apply String.ext
        exact h
      · intro h
        subst h
        rfl
    rw [h2, h1, h3]
  have hne : stringsSplit s ',' ≠ [] := by
    unfold stringsSplit
    intro h
    exact splitChars_ne_nil ',' s.toList (List.map_eq_nil_iff.mp h)
  refine ⟨?_, ?_, ?_⟩
  · unfold parse_extensions
    by_cases hh : (stringsSplit s ',').head? = some ""
    · simp only [hh, if_true, true_iff]
      exact hhead.1 hh
    · simp only [hh, if_false]
      constructor
      · intro h
        exact absurd h hne
      · intro h
        exact absurd (hhead.2 h) hh
  · intro hnot
    have hh : ¬ (stringsSplit s ',').head? = some "" := fun h => hnot (hhead.1 h)
    have hp : parse_extensions s = stringsSplit s ',' := by
      unfold parse_extensions
      simp only [hh, if_false]
    refine ⟨hp, ?_, ?_⟩
    · rw [hp]
      exact stringsJoin_stringsSplit s
    · rw [hp]
      intro f hf
      unfold stringsSplit at hf
      obtain ⟨g, hg, rfl⟩ := List.mem_map.mp hf
      exact splitChars_no_sep ',' s.toList g hg
  · intro h path
    rw [h]
    exact match_extension_nil path

/-- C19, on the flag string `go,,txt`: three fields, the empty one kept. -/
theorem C19_parse_extensions_witness :
    (¬ (("go,,txt" : String) = "" ∨ ("go,,txt" : String).toList.head? = some ','))
    ∧ (parse_extensions "go,,txt" = ["go", "", "txt"]
      ∧ parse_extensions "go,,txt" = stringsSplit "go,,txt" ','
      ∧ stringsJoin (parse_extensions "go,,txt") "," = "go,,txt"
      ∧ ∀ f ∈ parse_extensions "go,,txt", ',' ∉ f.toList)
    ∧ (parse_extensions ",go" = []
      ∧ ∀ path, match_extension (parse_extensions ",go") path = true) :=
  ⟨by decide,
   ⟨by decide, (C19_parse_extensions "go,,txt").2.1 (by decide)⟩,
   ⟨by decide, (C19_parse_extensions ",go").2.2 (by decide)⟩⟩

end GitAnalyze
